import Mathlib

/-!
# gometalinter-helper: file selection and tool-verdict aggregation

A shallow embedding of the two command line programs of the repository,
`cmd/check-go-files` (the simple pipeline) and `cmd/gometalinter-helper`
(the configurable pipeline), together with the properties of the
selection, filter and aggregation stages.

Go strings are modelled as lists of characters, Go `int` as `Int`.
Everything outside the process (the external commands, the directory
tree, the environment) is a field of `World`; the commands a run executes
and the reports it writes to standard error are recorded in `Sys`.
`log.Fatalf` and `os.Exit` inside a helper end the run at once, which is
the `Except.error` result.
-/

namespace GoMetalinter

/-- A Go string. -/
abbrev Str := List Char

/-! ## The process boundary -/

/-- The error value of `cmd.Run()`. -/
inductive RunError where
  /-- An `*exec.ExitError`; `waitStatus` is the `ExitStatus()` of its
  `Sys()` value when that value is a `syscall.WaitStatus`. -/
  | exitError (waitStatus : Option Int)
  /-- Any other error: the executable was not found or could not be
  started, or its output could not be copied. -/
  | other
  deriving DecidableEq, Repr

/-- What one `exec.Command(...).Run()` leaves behind. -/
structure Proc where
  stdout : Str
  stderr : Str
  err : Option RunError
  deriving DecidableEq, Repr

/-- The external commands: the result of running an argument vector, given
the commands run before it. -/
abbrev Exec := List (List Str) → List Str → Proc

/-- A report written to standard error by `commandStatus`. -/
inductive Report where
  /-- The template `Go files must pass %s:`. -/
  | mustPass (what : Str) (pass : Str)
  /-- The template `Error running %s:`. -/
  | errorRunning (what : Str) (e : Str)
  deriving DecidableEq, Repr

/-- The text of a report, as formatted by `fmt.Fprintf`. -/
def Report.render : Report → Str
  | .mustPass what pass =>
      "\nGo files must pass ".toList ++ what ++ ":\n\n".toList ++ pass ++ "\n".toList
  | .errorRunning what e =>
      "\nError running ".toList ++ what ++ ":\n".toList ++ e ++ "\n\n".toList

/-- The reason a run was ended from inside a helper. Each of them ends the
process with exit code 1. -/
inductive Fatal where
  /-- The call `log.Fatalf("Could not get an exit status from error: %v", e)`. -/
  | noExitStatus (args : List Str)
  /-- The call `log.Fatalf("Error executing %s: %v", ...)` of `run`. -/
  | executing (args : List Str)
  /-- The failure branch `Error running %s` of `stdoutFrom`. -/
  | running (args : List Str)
  /-- The failure branch `Error walking tree` of `allGoFiles`. -/
  | walking
  /-- The failure branch `Error stat'ing %s` of `setDirs`. -/
  | stating (f : Str)
  /-- The failure branch `Could not open %s for reading` of `readIgnoreFiles`. -/
  | opening (file : Str)
  /-- The call `badUsage(e)`. -/
  | badUsage (e : Str)
  deriving DecidableEq, Repr

/-- The observable record of a run: the commands executed so far, in order,
and the reports written to standard error. -/
structure Sys where
  trace : List (List Str)
  stderr : List Report
  deriving DecidableEq, Repr

/-- The record of a run that has not done anything yet. -/
def Sys.init : Sys := ⟨[], []⟩

/-- Append one report to standard error. -/
def Sys.report (st : Sys) (r : Report) : Sys :=
  { st with stderr := st.stderr ++ [r] }

/-- A step of a run: the new record and either a value or the fatal end. -/
abbrev Step (α : Type) := Sys × Except Fatal α

/-- Sequencing of steps: a fatal end stops the run. -/
def Step.andThen {α β : Type} (r : Step α) (k : α → Sys → Step β) : Step β :=
  match r with
  | (st, .ok a) => k a st
  | (st, .error f) => (st, .error f)

/-! ## Tool runner (`cmd/check-go-files`) -/

/-- Go's `regexp.MustCompile("(?m)^").ReplaceAllLiteralString(pass, "  ")`
after the first line: two blanks after every newline. -/
def indentRest : Str → Str
  | [] => []
  | c :: cs => if c = '\n' then c :: ' ' :: ' ' :: indentRest cs else c :: indentRest cs

/-- Go's `regexp.MustCompile("(?m)^").ReplaceAllLiteralString(pass, "  ")`:
two blanks at the start of the text and after every newline. -/
def indentLines (pass : Str) : Str := ' ' :: ' ' :: indentRest pass

/-- Source `run`: execute a command, capture both streams and the exit
status. -/
def run (ex : Exec) (args : List Str) (st : Sys) : Step (Str × Str × Int) :=
  let p := ex st.trace args
  let st1 : Sys := { st with trace := st.trace ++ [args] }
  match p.err with
  | some (.exitError (some status)) => (st1, .ok (p.stdout, p.stderr, status))
  | some (.exitError none) => (st1, .error (.noExitStatus args))
  | some .other => (st1, .error (.executing args))
  | none => (st1, .ok (p.stdout, p.stderr, 0))

/-- The body of source `commandStatus` after the call of `run`: the report it
writes, if any, and the value it returns. -/
def commandStatusOn (o e : Str) (s : Int) (what : Str) (checkStdout useStderr : Bool) :
    Option Report × Int :=
  let pass := if useStderr then e else o
  if (checkStdout && o != []) || (s == 1 && !checkStdout) then
    (some (.mustPass what (indentLines pass)), 1)
  else if s != 0 then
    (some (.errorRunning what e), 1)
  else
    (none, 0)

/-- Source `commandStatus`. -/
def commandStatus (ex : Exec) (c : List Str) (what : Str) (checkStdout useStderr : Bool)
    (st : Sys) : Step Int :=
  (run ex c st).andThen fun (o, e, s) st1 =>
    match commandStatusOn o e s what checkStdout useStderr with
    | (some r, n) => (st1.report r, .ok n)
    | (none, n) => (st1, .ok n)

/-- Source `gofmt`. -/
def gofmt (ex : Exec) (files : List Str) (st : Sys) : Step Int :=
  commandStatus ex (["gofmt".toList, "-l".toList] ++ files) "gofmt".toList true false st

/-- Source `golint`. -/
def golint (ex : Exec) (pkgs : List Str) (st : Sys) : Step Int :=
  commandStatus ex (["golint".toList] ++ pkgs) "golint".toList true false st

/-- Source `vet`. -/
def vet (ex : Exec) (pkgs : List Str) (st : Sys) : Step Int :=
  commandStatus ex (["go".toList, "vet".toList] ++ pkgs) "go vet".toList false true st

/-- Source `errcheck`. -/
def errcheck (ex : Exec) (pkgs : List Str) (st : Sys) : Step Int :=
  commandStatus ex (["errcheck".toList] ++ pkgs) "errcheck".toList false false st

/-- Source `dep`; `lock` is `fileExists("Gopkg.lock")`. -/
def dep (ex : Exec) (lock : Bool) (st : Sys) : Step Int :=
  if !lock then (st, .ok 0)
  else commandStatus ex ["dep".toList, "status".toList] "dep status".toList false true st

/-! ## Paths (`path/filepath` on a system whose separator is `/`) -/

/-- One step of `filepath.Clean` on a path element; `out` is the output so far,
last element first. -/
def cleanStep (rooted : Bool) (out : List Str) (c : Str) : List Str :=
  if c = [] ∨ c = ".".toList then out
  else if c = "..".toList then
    match out with
    | top :: rest =>
        if top = "..".toList then (if rooted then out else c :: out) else rest
    | [] => if rooted then [] else [c]
  else c :: out

/-- Go's `filepath.Clean`: the shortest path equivalent to `path` by lexical
processing (no empty element, no `.` element, no inner `..`, no `..` at the
root); the empty result is `.`. -/
def Clean (path : Str) : Str :=
  if path = [] then ".".toList
  else
    let rooted := path.head? = some '/'
    let out := ((path.splitOn '/').foldl (cleanStep rooted) []).reverse
    let s := (if rooted then ['/'] else []) ++ ['/'].intercalate out
    if s = [] then ".".toList else s

/-- The part of a path up to and including its last separator. -/
def dirPart (path : Str) : Str :=
  (path.reverse.dropWhile (fun c => c != '/')).reverse

/-- Go's `filepath.Dir`: all but the last element of `path`, cleaned. -/
def Dir (path : Str) : Str := Clean (dirPart path)

/-- Go's `filepath.Join`: the elements from the first non-empty one on, joined
by the separator and cleaned. -/
def Join (elem : List Str) : Str :=
  match elem.dropWhile (fun e => e == []) with
  | [] => []
  | es => Clean (['/'].intercalate es)

/-- A path element that `filepath.Clean` keeps as it is: not empty, not `.`,
not `..`, without a separator. Directory entries have such names. -/
def validName (c : Str) : Bool :=
  c != [] && c != ".".toList && c != "..".toList && !c.contains '/'

/-- Go's `filepath.ToSlash`, the identity where the separator is `/`. -/
def ToSlash (path : Str) : Str := path

/-- Go's `sort.Strings`: ascending order of the byte strings. -/
def sortStrings (xs : List Str) : List Str := xs.insertionSort (· ≤ ·)

/-- Assignment `m[k] = true` on a Go `map[string]bool` whose values are all
`true`, kept as the list of its keys. -/
def mapSet (m : List Str) (k : Str) : List Str :=
  if k ∈ m then m else m ++ [k]

/-! ## Lines and extensions -/

/-- Source `isGoFile`: the regular expression `\.go$` matches. -/
def isGoFile (path : Str) : Bool := ".go".toList.isSuffixOf path

/-- The length of a Go string in bytes. -/
def byteLen (s : Str) : Nat := (s.map Char.utf8Size).sum

/-- Go's `bufio.MaxScanTokenSize`. -/
def maxScanTokenSize : Nat := 64 * 1024

/-- Go's `dropCR` of `bufio.ScanLines`. -/
def dropCR (line : Str) : Str :=
  if line.getLast? = some '\r' then line.dropLast else line

/-- The pieces of a text between newlines, without the empty piece after the
last newline. -/
def rawLines (from_ : Str) : List Str :=
  let ps := from_.splitOn '\n'
  if ps.getLast? = some [] then ps.dropLast else ps

/-- The tokens of a `bufio.Scanner` with `bufio.ScanLines` over a text: its
lines without the line end, up to the first line that does not fit the
scanner's buffer. -/
def scanLines (from_ : Str) : List Str :=
  ((rawLines from_).takeWhile (fun l => decide (byteLen l < maxScanTokenSize))).map dropCR

/-- Source `linesFrom` (the same function in both programs). -/
def linesFrom (from_ : Str) : List Str :=
  (scanLines from_).filter isGoFile

/-- Go's `unicode.IsSpace`. -/
def isSpace (c : Char) : Bool :=
  let n := c.toNat
  (9 ≤ n && n ≤ 13) || n == 0x20 || n == 0x85 || n == 0xA0 || n == 0x1680 ||
    (0x2000 ≤ n && n ≤ 0x200A) || n == 0x2028 || n == 0x2029 || n == 0x202F ||
    n == 0x205F || n == 0x3000

/-- Go's `strings.TrimSpace`. -/
def TrimSpace (s : Str) : Str :=
  ((s.dropWhile isSpace).reverse.dropWhile isSpace).reverse

/-- Source `filteredOutput` (`cmd/gometalinter-helper`). -/
def filteredOutput (output : Str) : List Str :=
  (linesFrom (TrimSpace output)).filter fun l =>
    let p := (ToSlash l).splitOn '/'
    !(p.headD [] == ".git".toList || p.headD [] == "vendor".toList)

/-- Source `dirs` (`cmd/check-go-files`): the keys of the map `m`, in the order
of their first assignment. -/
def dirsMap (files : List Str) : List Str :=
  files.foldl (fun m f => mapSet m (Join [Dir f])) []

/-- Source `dirs` (`cmd/check-go-files`). The order in which the map is
ranged over does not show in the sorted result (`dirs_range_order`). -/
def dirs (files : List Str) : List Str :=
  sortStrings ((dirsMap files).map fun d => "./".toList ++ d)

/-- Source `checkFiles`. -/
def checkFiles (ex : Exec) (lock : Bool) (files : List Str) (st : Sys) : Step Int :=
  let exit : Int := 0
  let pkgs := dirs files
  (gofmt ex files st).andThen fun n1 st1 =>
  (golint ex pkgs st1).andThen fun n2 st2 =>
  (vet ex pkgs st2).andThen fun n3 st3 =>
  (errcheck ex pkgs st3).andThen fun n4 st4 =>
  (dep ex lock st4).andThen fun n5 st5 =>
  (st5, .ok (exit + n1 + n2 + n3 + n4 + n5))

/-- The verdict on one tool. -/
inductive Verdict where
  | pass
  | fail (report : Str)
  | executionError (detail : Str)
  deriving DecidableEq, Repr

/-- The verdict a report of `commandStatus` stands for. -/
def verdictOf : Option Report → Verdict
  | none => .pass
  | some (.mustPass _ pass) => .fail pass
  | some (.errorRunning _ e) => .executionError e


/-! ## The world outside the process -/

mutual
/-- A node of the directory tree, as `os.Lstat` and `readDirNames` show it. -/
inductive Node where
  /-- Anything that is not a directory. -/
  | file : Node
  /-- A directory and its entries in the order of `readDirNames` (sorted by
  name). -/
  | dir : Entries → Node
  /-- A directory whose entries cannot be read. -/
  | noRead : Node
  /-- An entry on which `os.Lstat` fails. -/
  | bad : Node
/-- The entries of a directory: names and nodes. -/
inductive Entries where
  | nil : Entries
  | cons : Str → Node → Entries → Entries
end

/-- The value of `info.IsDir()`. -/
def Node.isDir : Node → Bool
  | .dir _ => true
  | .noRead => true
  | _ => false

/-- Everything outside the process. -/
structure World where
  /-- The command line after the program name, `os.Args[1:]`. -/
  args : List Str
  /-- The value of `os.Getenv("CI")`. -/
  ci : Str
  /-- The external commands. -/
  exec : Exec
  /-- The directory `.`. -/
  tree : Node
  /-- Whether `Gopkg.lock` exists. -/
  lock : Bool
  /-- The call `os.Stat(f)`: `none` for an error, else `info.IsDir()`. -/
  stat : Str → Option Bool
  /-- The content of a file that can be opened. -/
  readFile : Str → Option Str
  /-- The match result `m` of `zglob.Match(pattern, name)`. -/
  zglob : Str → Str → Bool

/-! ## Source selection -/

/-- The error value a `filepath.WalkFunc` returns. -/
inductive WalkRet where
  | nil
  | skipDir
  | err
  deriving DecidableEq, Repr

/-- A `filepath.WalkFunc` that appends to a list of files: path, `info.IsDir()`,
whether `err != nil`, the files so far. -/
abbrev WalkFunc := Str → Bool → Bool → List Str → List Str × WalkRet

mutual
/-- Go's `filepath.walk`. -/
def walk (fn : WalkFunc) (path : Str) : Node → List Str → List Str × WalkRet
  | .file, files => fn path false false files
  | .bad, files => fn path false true files
  | .noRead, files => fn path true true files
  | .dir es, files =>
      match fn path true false files with
      | (files1, .nil) => walkEntries fn path es files1
      | r => r
/-- The loop of Go's `filepath.walk` over the names of a directory. -/
def walkEntries (fn : WalkFunc) (path : Str) : Entries → List Str → List Str × WalkRet
  | .nil, files => (files, .nil)
  | .cons name child rest, files =>
      match walk fn (Join [path, name]) child files with
      | (files1, .nil) => walkEntries fn path rest files1
      | (files1, .skipDir) =>
          if child.isDir || child matches .bad then walkEntries fn path rest files1
          else (files1, .skipDir)
      | (files1, .err) => (files1, .err)
end

/-- Go's `filepath.Walk`. -/
def Walk (root : Str) (fn : WalkFunc) (tree : Node) (files : List Str) : List Str × WalkRet :=
  match walk fn root tree files with
  | (files1, .skipDir) => (files1, .nil)
  | r => r

/-- Source `stdoutFrom` (the same in both programs, up to the way the failure
is printed). -/
def stdoutFrom (ex : Exec) (args : List Str) (st : Sys) : Step Str :=
  let p := ex st.trace args
  let st1 : Sys := { st with trace := st.trace ++ [args] }
  if p.err.isSome then (st1, .error (.running args)) else (st1, .ok p.stdout)

/-- The command of the query for the staged files. -/
def gitStaged : List Str :=
  ["git".toList, "diff".toList, "--cached".toList, "--name-only".toList,
    "--diff-filter=ACM".toList]

/-- The command of the query for the current branch. -/
def gitBranch : List Str :=
  ["git".toList, "rev-parse".toList, "--abbrev-ref".toList, "HEAD".toList]

/-- The command of the query for the files that differ from master. -/
def gitDiff (branch : Str) : List Str :=
  ["git".toList, "diff".toList, "--name-only".toList, "master...".toList ++ branch]

namespace CheckGoFiles

/-- The function literal passed to `filepath.Walk` in source `allGoFiles`. -/
def walkFn : WalkFunc := fun path _ err files =>
  if err then (files, .err)
  else if path = ".git".toList ∨ path = "vendor".toList then (files, .skipDir)
  else if isGoFile path then (files ++ [path], .nil)
  else (files, .nil)

/-- Source `allGoFiles`. -/
def allGoFiles (w : World) (st : Sys) : Step (List Str) :=
  match Walk ".".toList walkFn w.tree [] with
  | (files, .nil) => (st, .ok files)
  | _ => (st, .error .walking)

/-- Source `commitHookGoFiles`. -/
def commitHookGoFiles (w : World) (st : Sys) : Step (List Str) :=
  (stdoutFrom w.exec gitStaged st).andThen fun output st1 => (st1, .ok (linesFrom output))

/-- Source `ciGoFiles`. -/
def ciGoFiles (w : World) (st : Sys) : Step (List Str) :=
  (stdoutFrom w.exec gitBranch st).andThen fun out st1 =>
    let branch := TrimSpace out
    if branch = "master".toList then allGoFiles w st1
    else (stdoutFrom w.exec (gitDiff branch) st1).andThen fun output st2 =>
      (st2, .ok (linesFrom output))

/-- The regular expression `^--?h(?:elp)?` of source `main` matches. -/
def isHelp (flag : Str) : Bool :=
  "-h".toList.isPrefixOf flag || "--h".toList.isPrefixOf flag

/-- The chain of conditions of source `main` that sets `files`, for a flag that
does not ask for the usage. -/
def selectFiles (w : World) (st : Sys) : Step (List Str) :=
  let flag := w.args.headD []
  if flag = "-all".toList then allGoFiles w st
  else if flag = "-commit-hook".toList then commitHookGoFiles w st
  else if w.ci ≠ [] then ciGoFiles w st
  else (st, .ok w.args)

/-- Source `main`: the record of the run and the argument of `os.Exit`. -/
def main (w : World) : Step Int :=
  let flag := w.args.headD []
  if isHelp flag then (Sys.init, .ok 0)
  else
    (selectFiles w Sys.init).andThen fun files st =>
      if files.length = 0 then (st, .ok 0)
      else checkFiles w.exec w.lock (sortStrings files) st

end CheckGoFiles

namespace Helper

/-- Source `type helper struct`. -/
structure helper where
  hook : Bool
  all : Bool
  exe : Str
  verbose : Bool
  ignore : List Str
  dirs : List Str
  fileArgs : List Str
  gmlArgs : List Str
  deriving DecidableEq, Repr

/-- What `flag.Parse()` leaves: the value of each flag and `flag.Args()`. -/
structure Flags where
  hook : Bool
  all : Bool
  exe : Str
  ignore : List Str
  verbose : Bool
  help : Bool
  args : List Str
  deriving DecidableEq, Repr

/-- The regular expression `\S` matches: some character is not one of the
blanks of `\s`. -/
def hasNonSpace (line : Str) : Bool :=
  line.any fun c => !(c == '\t' || c == '\n' || c == '\x0c' || c == '\r' || c == ' ')

/-- Source `readIgnoreFiles`. -/
def readIgnoreFiles (w : World) : List Str → helper → Except Fatal helper
  | [], h => .ok h
  | file :: files, h =>
      match w.readFile file with
      | none => .error (.opening file)
      | some text =>
          readIgnoreFiles w files
            { h with ignore := h.ignore ++ ((scanLines text).filter hasNonSpace).map TrimSpace }

/-- Source `parseExtraArgs`, the loop over `flag.Args()`. -/
def parseExtraArgsLoop : List Str → Bool → helper → helper
  | [], _, h => h
  | v :: vs, inGMLArgs, h =>
      if v = "--".toList then parseExtraArgsLoop vs true h
      else if inGMLArgs || "-".toList.isPrefixOf v then
        parseExtraArgsLoop vs inGMLArgs { h with gmlArgs := h.gmlArgs ++ [v] }
      else
        parseExtraArgsLoop vs inGMLArgs { h with fileArgs := h.fileArgs ++ [v] }

/-- Source `parseExtraArgs`. -/
def parseExtraArgs (h : helper) (flagArgs : List Str) : helper :=
  parseExtraArgsLoop flagArgs false h

/-- Source `inCI`. -/
def inCI (w : World) : Bool := w.ci != []

/-- Source `checkArgSanity`. -/
def checkArgSanity (w : World) (h : helper) : Except Fatal Unit :=
  if h.fileArgs.length > 0 && (h.all || h.hook) then
    .error (.badUsage "Cannot combine -all or -commit-hook with files".toList)
  else if h.fileArgs.length = 0 && !(h.all || h.hook) && !inCI w then
    .error (.badUsage
      "When running outside a CI system, you must pass -all, -commit-hook, or a list of files".toList)
  else if h.all && h.hook then
    .error (.badUsage "Cannot pass both -all and -commit-hook".toList)
  else .ok ()

/-- The function literal passed to `filepath.Walk` in source `allGoFiles`. -/
def walkFn : WalkFunc := fun path isDir err files =>
  if err then (files, .err)
  else if isDir && (path = ".git".toList || path = "vendor".toList) then (files, .skipDir)
  else if isGoFile path then (files ++ [path], .nil)
  else (files, .nil)

/-- Source `allGoFiles`. -/
def allGoFiles (w : World) (st : Sys) : Step (List Str) :=
  match Walk ".".toList walkFn w.tree [] with
  | (files, .nil) => (st, .ok files)
  | _ => (st, .error .walking)

/-- Source `commitHookGoFiles`. -/
def commitHookGoFiles (w : World) (st : Sys) : Step (List Str) :=
  (stdoutFrom w.exec gitStaged st).andThen fun output st1 => (st1, .ok (filteredOutput output))

/-- Source `ciGoFiles`. -/
def ciGoFiles (w : World) (st : Sys) : Step (List Str) :=
  (stdoutFrom w.exec gitBranch st).andThen fun out st1 =>
    let branch := TrimSpace out
    if branch = "master".toList then allGoFiles w st1
    else (stdoutFrom w.exec (gitDiff branch) st1).andThen fun output st2 =>
      (st2, .ok (filteredOutput output))

/-- The chain of conditions of source `setDirs` that sets `files`. -/
def selectFiles (w : World) (h : helper) (st : Sys) : Step (List Str) :=
  if h.all then allGoFiles w st
  else if h.hook then commitHookGoFiles w st
  else if inCI w then ciGoFiles w st
  else (st, .ok h.fileArgs)

/-- The loop `Files:` of source `setDirs` over the selected files: the keys of
the map `dirs`, in the order of their first assignment. -/
def setDirsLoop (w : World) (ignore : List Str) : List Str → List Str → Except Fatal (List Str)
  | [], m => .ok m
  | f :: fs, m =>
      if ignore.any (fun i => w.zglob i f) then setDirsLoop w ignore fs m
      else
        match w.stat f with
        | none => .error (.stating f)
        | some true => setDirsLoop w ignore fs (mapSet m f)
        | some false => setDirsLoop w ignore fs (mapSet m (Dir f))

/-- Source `setDirs`. The order in which the map is ranged over does not show
in the sorted result. -/
def setDirs (w : World) (h : helper) (st : Sys) : Step helper :=
  (selectFiles w h st).andThen fun files st1 =>
    match setDirsLoop w h.ignore files [] with
    | .error f => (st1, .error f)
    | .ok m => (st1, .ok { h with dirs := sortStrings (h.dirs ++ m) })

/-- Source `runMetalinter`. -/
def runMetalinter (w : World) (h : helper) (st : Sys) : Sys × Int :=
  let args := h.gmlArgs ++ h.dirs
  let p := w.exec st.trace (h.exe :: args)
  let st1 : Sys := { st with trace := st.trace ++ [h.exe :: args] }
  match p.err with
  | some (.exitError (some status)) => (st1, status)
  | some _ => (st1, 1)
  | none => (st1, 0)

/-- Source `main`, after `flag.Parse()`: the record of the run and the argument
of `os.Exit`. -/
def main (w : World) (fl : Flags) : Step Int :=
  let h : helper := ⟨fl.hook, fl.all, fl.exe, fl.verbose, [], [], [], []⟩
  if fl.help then (Sys.init, .ok 0)
  else
    match (if fl.ignore.length ≠ 0 then readIgnoreFiles w fl.ignore h else .ok h) with
    | .error f => (Sys.init, .error f)
    | .ok h1 =>
        (setDirs w (parseExtraArgs h1 fl.args) Sys.init).andThen fun h2 st =>
          match checkArgSanity w h2 with
          | .error f => (st, .error f)
          | .ok _ =>
              if h2.dirs.length = 0 then (st, .ok 0)
              else
                let r := runMetalinter w h2 st
                (r.1, .ok r.2)

end Helper

/-- The exit status of the process at the end of a run: the low eight bits of
the argument of `os.Exit`, and 1 after a fatal end. -/
def exitCode : Except Fatal Int → Int
  | .ok n => n % 256
  | .error _ => 1

/-! ## The tool table of `checkFiles` -/

/-- One row of the tool table: the arguments `checkFiles` passes to
`commandStatus` for one tool. -/
structure Tool where
  cmd : List Str
  what : Str
  checkStdout : Bool
  useStderr : Bool
  deriving DecidableEq, Repr

/-- The tools `checkFiles` runs, in the order of its statements; `dep status`
is in the table when `Gopkg.lock` exists. -/
def toolsOf (lock : Bool) (files : List Str) : List Tool :=
  [ ⟨["gofmt".toList, "-l".toList] ++ files, "gofmt".toList, true, false⟩,
    ⟨["golint".toList] ++ dirs files, "golint".toList, true, false⟩,
    ⟨["go".toList, "vet".toList] ++ dirs files, "go vet".toList, false, true⟩,
    ⟨["errcheck".toList] ++ dirs files, "errcheck".toList, false, false⟩ ] ++
  (if lock then [⟨["dep".toList, "status".toList], "dep status".toList, false, true⟩] else [])

/-- The exit status `run` returns for a finished process, if it returns. -/
def Proc.exitStatus? (p : Proc) : Option Int :=
  match p.err with
  | none => some 0
  | some (.exitError s) => s
  | some .other => none

/-- The verdict of `commandStatus` on a tool whose process is `p`. -/
def Tool.verdict? (t : Tool) (p : Proc) : Option Verdict :=
  p.exitStatus?.map fun s =>
    verdictOf (commandStatusOn p.stdout p.stderr s t.what t.checkStdout t.useStderr).1

/-- The report `commandStatus` writes on a tool whose process is `p`. -/
def Tool.report? (t : Tool) (p : Proc) : Option Report :=
  p.exitStatus?.bind fun s =>
    (commandStatusOn p.stdout p.stderr s t.what t.checkStdout t.useStderr).1

/-- The process of each tool of a table when the tools are run one after the
other, `hist` being the commands run before. -/
def procsOf (ex : Exec) : List (List Str) → List Tool → List (Tool × Proc)
  | _, [] => []
  | hist, t :: ts => (t, ex hist t.cmd) :: procsOf ex (hist ++ [t.cmd]) ts

/-- The number of tools of a table whose verdict is not `pass`. -/
def failures (ex : Exec) (hist : List (List Str)) (ts : List Tool) : Nat :=
  ((procsOf ex hist ts).filter fun tp => decide (tp.1.verdict? tp.2 ≠ some .pass)).length

/-- The reports on the tools of a table, in the order of the table. -/
def reportsOf (ex : Exec) (hist : List (List Str)) (ts : List Tool) : List Report :=
  (procsOf ex hist ts).filterMap fun tp => tp.1.report? tp.2

/-- A world in which the executable `name` cannot be started and every other
command prints nothing and ends with status 0. -/
def missingExec (name : Str) : Exec := fun _ c =>
  if c.head? = some name then ⟨[], [], some .other⟩ else ⟨[], [], none⟩

/-- A generic loop over a tool table: run every tool with `commandStatus` and
add up the results. -/
def runTools (ex : Exec) : List Tool → Sys → Int → Step Int
  | [], st, acc => (st, .ok acc)
  | t :: ts, st, acc =>
      (commandStatus ex t.cmd t.what t.checkStdout t.useStderr st).andThen fun n st1 =>
        runTools ex ts st1 (acc + n)

/-- A report reformatted by indenting every line: the text cut at its
newlines, two blanks put before every piece (the one after a last newline
too), the pieces joined by newlines again. -/
def indentEveryLine (report : Str) : Str :=
  ['\n'].intercalate ((report.splitOn '\n').map fun l => ' ' :: ' ' :: l)

/-- The channel the interpretation rule of a tool designates. -/
def designated (useStderr : Bool) (o e : Str) : Str := if useStderr then e else o

/-- The channel the interpretation rule of a tool does not designate. -/
def otherChannel (useStderr : Bool) (o e : Str) : Str := if useStderr then o else e

/-- A world for examples: every command prints `o` and `e` and ends with
`err`. -/
def constExec (o e : Str) (err : Option RunError) : Exec := fun _ _ => ⟨o, e, err⟩

/-- A walk function that only appends paths with a property keeps the
property of the files collected. -/
def WalkFunc.Keeps (fn : WalkFunc) (P : Str → Prop) : Prop :=
  ∀ path d e files, (∀ f ∈ files, P f) → ∀ f ∈ (fn path d e files).1, P f

/-- The first path segment of a path. -/
def firstSegment (path : Str) : Str := (path.splitOn '/').headD []

/-- External commands for examples: the query for the staged files prints
`staged`, every other command prints nothing; all end with status 0. -/
def stagedExec (staged : Str) : Exec := fun _ c =>
  if c = gitStaged then ⟨staged, [], none⟩ else ⟨[], [], none⟩

/-- The file arguments of a command line: the arguments before the first `--`
that do not start with a dash. -/
def Helper.fileArguments (args : List Str) : List Str :=
  (args.takeWhile fun v => v != "--".toList).filter fun v => !("-".toList.isPrefixOf v)

/-- The helper `main` starts from, for the parsed flags. -/
def Helper.initial (fl : Helper.Flags) : Helper.helper :=
  ⟨fl.hook, fl.all, fl.exe, fl.verbose, [], [], [], []⟩

/-- The helper of `main` after `readIgnoreFiles`, when the ignore files can be
read. -/
def Helper.loaded (w : World) (fl : Helper.Flags) : Except Fatal Helper.helper :=
  if fl.ignore.length ≠ 0 then Helper.readIgnoreFiles w fl.ignore (Helper.initial fl)
  else .ok (Helper.initial fl)

/-- Flags for examples: the flags `all` and `hook` and the arguments `args`;
the default executable, no ignore file, no `-verbose`, no `-help`. -/
def flagsOf (all hook : Bool) (args : List Str) : Helper.Flags :=
  ⟨hook, all, "gometalinter".toList, [], false, false, args⟩

/-- A tree for examples: the files `a.go` and `sub/vendor/x.go`, and the file
`vendor/v.go` in the directory `vendor` of the root. -/
def exampleTree : Node :=
  .dir (.cons "a.go".toList .file
    (.cons "sub".toList (.dir (.cons "vendor".toList (.dir (.cons "x.go".toList .file .nil)) .nil))
      (.cons "vendor".toList (.dir (.cons "v.go".toList .file .nil)) .nil)))

mutual
/-- The paths of a node at `path` and of everything below it, in the order of
the walk. -/
def Node.paths (path : Str) : Node → List Str
  | .dir es => path :: es.paths (path ++ ['/'])
  | _ => [path]
/-- The paths of the entries of a directory, `pre` being what stands before a
name: nothing in the root, the path of the directory and a separator below. -/
def Entries.paths (pre : Str) : Entries → List Str
  | .nil => []
  | .cons name child rest => child.paths (pre ++ name) ++ rest.paths pre
end

/-- The paths of a tree walked from the root `.`, in the order of the walk. -/
def treePaths : Node → List Str
  | .dir es => ".".toList :: es.paths []
  | _ => [".".toList]

mutual
/-- A node that a walk reads without an error: every name below it is the
name of a directory entry, every directory can be read, `os.Lstat` works. -/
def Node.sound : Node → Bool
  | .file => true
  | .dir es => es.sound
  | _ => false
/-- Entries that a walk reads without an error. -/
def Entries.sound : Entries → Bool
  | .nil => true
  | .cons name child rest => validName name && child.sound && rest.sound
end

/-- A path of the root that is `.git` or `vendor`. -/
def isPruned (name : Str) : Bool := name == ".git".toList || name == "vendor".toList

/-- The entries of the root that a walk reads without an error: nothing is
asked of what is inside a directory `.git` or `vendor` of the root. With
`strict`, an entry of the root named `.git` or `vendor` is a directory. -/
def Entries.rootSound (strict : Bool) : Entries → Bool
  | .nil => true
  | .cons name child rest =>
      validName name &&
      (if isPruned name then
        (match child with
          | .dir _ => true
          | .file => !strict
          | _ => false)
       else child.sound) &&
      rest.rootSound strict

/-- A tree that a walk from the root reads without an error. -/
def Node.rootSound (strict : Bool) : Node → Bool
  | .file => true
  | .dir es => es.rootSound strict
  | _ => false

/-- A path that all-files mode returns if it is in the tree: it ends in `.go`
and its first segment is neither `.git` nor `vendor`. -/
def keptPath (path : Str) : Bool := isGoFile path && !isPruned (firstSegment path)

/-- A tree for examples: the root holds a regular file `.git` (as in a linked
working tree) and the file `a.go`. -/
def gitFileTree : Node :=
  .dir (.cons ".git".toList .file (.cons "a.go".toList .file .nil))

/-- A walk function that, on a path other than `.git` and `vendor` and
without an error, appends the path when it ends in `.go` and goes on. -/
def WalkFunc.Plain (fn : WalkFunc) : Prop :=
  ∀ path d files, path ≠ ".git".toList → path ≠ "vendor".toList →
    fn path d false files = (if isGoFile path then files ++ [path] else files, .nil)

/-- A path at or below the path `n`. -/
def Under (n p : Str) : Prop := p = n ∨ ∃ r, p = n ++ '/' :: r

/-- A world for examples: the command line `args`, the variable `CI`, the
external commands `ex` and the tree `tree`; no `Gopkg.lock`, every path a
regular file for `os.Stat`, no ignore file that can be read, no pattern that
matches. -/
def worldOf (args : List Str) (ci : Str) (ex : Exec) (tree : Node) : World :=
  ⟨args, ci, ex, tree, false, fun _ => some false, fun _ => none, fun _ _ => false⟩

/-- A helper for examples, as `main` builds it for the flags `all` and `hook`
and the file arguments `fileArgs`. -/
def helperOf (all hook : Bool) (fileArgs : List Str) : Helper.helper :=
  ⟨hook, all, "gometalinter".toList, false, [], [], fileArgs, []⟩

/-! ## Properties of the tool runner -/

theorem intercalate_nil_cons (sep y : Str) (ys : List Str) :
    sep.intercalate ([] :: y :: ys) = sep ++ sep.intercalate (y :: ys) := by
  simp [List.intercalate]

theorem intercalate_append_head (sep a x : Str) (xs : List Str) :
    sep.intercalate ((a ++ x) :: xs) = a ++ sep.intercalate (x :: xs) := by
  cases xs with
  | nil => simp [List.intercalate]
  | cons y ys => simp [List.intercalate]

theorem indentRest_eq : ∀ (s hd : Str) (tl : List Str), s.splitOn '\n' = hd :: tl →
    indentRest s = ['\n'].intercalate (hd :: tl.map fun l => ' ' :: ' ' :: l) := by
  intro s
  induction s with
  | nil =>
    intro hd tl h
    simp only [List.splitOn_nil, List.cons.injEq] at h
    obtain ⟨rfl, rfl⟩ := h
    rfl
  | cons c cs ih =>
    intro hd tl h
    obtain ⟨hd1, tl1, h1⟩ := List.exists_cons_of_ne_nil
      (List.splitOnP_ne_nil (fun x => x == '\n') cs)
    have ih1 := ih hd1 tl1 h1
    simp only [List.splitOn, List.splitOnP_cons] at h h1
    rw [h1] at h
    by_cases hc : c = '\n'
    · subst hc
      simp only [beq_self_eq_true, if_true, List.cons.injEq] at h
      obtain ⟨rfl, rfl⟩ := h
      simp only [indentRest, if_true, List.map_cons]
      rw [ih1]
      have := intercalate_append_head ['\n'] [' ', ' '] hd1 (tl1.map fun l => ' ' :: ' ' :: l)
      simp only [List.cons_append, List.nil_append] at this
      rw [intercalate_nil_cons, this]
      rfl
    · have hb : (c == '\n') = false := by simpa using hc
      simp only [hb, Bool.false_eq_true, if_false, List.modifyHead, List.cons.injEq] at h
      obtain ⟨rfl, rfl⟩ := h
      simp only [indentRest, if_neg hc]
      rw [ih1]
      exact (intercalate_append_head ['\n'] [c] hd1 _).symm

/-- Source line 221 indents every line of the report: two blanks before the
first line and after every newline. -/
theorem indentLines_eq (s : Str) : indentLines s = indentEveryLine s := by
  obtain ⟨hd, tl, h⟩ := List.exists_cons_of_ne_nil
    (List.splitOnP_ne_nil (fun x => x == '\n') s)
  have h2 : s.splitOn '\n' = hd :: tl := h
  unfold indentLines indentEveryLine
  rw [indentRest_eq s hd tl h2, h2, List.map_cons]
  exact (intercalate_append_head ['\n'] [' ', ' '] hd _).symm

theorem commandStatus_of_run {ex : Exec} {c : List Str} {st st1 : Sys} {o e : Str} {s : Int}
    (hrun : run ex c st = (st1, .ok (o, e, s))) (what : Str) (checkStdout useStderr : Bool) :
    commandStatus ex c what checkStdout useStderr st =
      match commandStatusOn o e s what checkStdout useStderr with
      | (some r, n) => (st1.report r, .ok n)
      | (none, n) => (st1, .ok n) := by
  simp [commandStatus, hrun, Step.andThen]

/-- C1: under the output-presence rule (`checkStdout = true`, the standard
output designated, as for gofmt and golint), a tool that printed to standard
output fails whatever its exit status, and its report is that output with every
line indented by two blanks;
one that printed nothing and ended with a non-zero status is an execution
error reported with its standard error; one that printed nothing and ended
with status 0 passes, returns 0 and reports nothing. -/
theorem commandStatus_output_presence (ex : Exec) (c : List Str) (what : Str)
    (st st1 : Sys) (o e : Str) (s : Int)
    (hrun : run ex c st = (st1, .ok (o, e, s))) :
    (o ≠ [] →
      commandStatus ex c what true false st
          = (st1.report (.mustPass what (indentEveryLine o)), .ok 1) ∧
        verdictOf (commandStatusOn o e s what true false).1 = .fail (indentEveryLine o)) ∧
    (o = [] → s ≠ 0 →
      commandStatus ex c what true false st = (st1.report (.errorRunning what e), .ok 1) ∧
        verdictOf (commandStatusOn o e s what true false).1 = .executionError e) ∧
    (o = [] → s = 0 →
      commandStatus ex c what true false st = (st1, .ok 0) ∧
        verdictOf (commandStatusOn o e s what true false).1 = .pass) := by
  rw [commandStatus_of_run hrun]
  refine ⟨fun ho => ?_, fun ho hs => ?_, fun ho hs => ?_⟩
  · simp [commandStatusOn, ho, verdictOf, indentLines_eq]
  · simp [commandStatusOn, ho, hs, verdictOf]
  · simp [commandStatusOn, ho, hs, verdictOf]

theorem commandStatus_output_presence_witness :
    commandStatus (constExec "a.go\n".toList [] none) ["gofmt".toList, "-l".toList, "a.go".toList]
        "gofmt".toList true false Sys.init
      = ((⟨[["gofmt".toList, "-l".toList, "a.go".toList]], []⟩ : Sys).report
          (.mustPass "gofmt".toList "  a.go\n  ".toList), .ok 1) :=
  ((commandStatus_output_presence (constExec "a.go\n".toList [] none)
    ["gofmt".toList, "-l".toList, "a.go".toList] "gofmt".toList Sys.init
    ⟨[["gofmt".toList, "-l".toList, "a.go".toList]], []⟩ "a.go\n".toList [] 0 rfl).1
    (by decide)).1

/-- C2 as stated fails: `go vet` (exit-status rule, standard error designated)
ending with status 2 is reported with its standard error, which is its
designated channel, not with the other channel. -/
theorem commandStatus_exit_status_counterexample :
    (commandStatus (constExec "out".toList "err".toList (some (.exitError (some 2))))
        ["go".toList, "vet".toList, "./.".toList] "go vet".toList false true Sys.init).1.stderr
      = [.errorRunning "go vet".toList (designated true "out".toList "err".toList)] ∧
    (commandStatus (constExec "out".toList "err".toList (some (.exitError (some 2))))
        ["go".toList, "vet".toList, "./.".toList] "go vet".toList false true Sys.init).1.stderr
      ≠ [.errorRunning "go vet".toList (otherChannel true "out".toList "err".toList)] := by
  constructor <;> decide

/-- C2, amended: under the exit-status rule (`checkStdout = false`) a tool that
ends with status 1 fails, and its report is the content of its designated
channel, every line indented by two blanks, whatever the other channel holds; one that ends with another
non-zero status is an execution error whose report is the standard error, which
is the other channel exactly for a tool whose designated channel is the
standard output; one that ends with status 0 passes. -/
theorem commandStatus_exit_status (ex : Exec) (c : List Str) (what : Str) (useStderr : Bool)
    (st st1 : Sys) (o e : Str) (s : Int)
    (hrun : run ex c st = (st1, .ok (o, e, s))) :
    (s = 1 →
      commandStatus ex c what false useStderr st
          = (st1.report (.mustPass what (indentEveryLine (designated useStderr o e))), .ok 1) ∧
        verdictOf (commandStatusOn o e s what false useStderr).1
          = .fail (indentEveryLine (designated useStderr o e))) ∧
    (s ≠ 1 → s ≠ 0 →
      commandStatus ex c what false useStderr st = (st1.report (.errorRunning what e), .ok 1) ∧
        verdictOf (commandStatusOn o e s what false useStderr).1 = .executionError e ∧
        (useStderr = false → e = otherChannel useStderr o e)) ∧
    (s = 0 →
      commandStatus ex c what false useStderr st = (st1, .ok 0) ∧
        verdictOf (commandStatusOn o e s what false useStderr).1 = .pass) := by
  rw [commandStatus_of_run hrun]
  refine ⟨fun hs => ?_, fun h1 h0 => ?_, fun hs => ?_⟩
  · simp [commandStatusOn, hs, verdictOf, designated, indentLines_eq]
  · refine ⟨?_, ?_, fun hu => ?_⟩
    · simp [commandStatusOn, h1, h0]
    · simp [commandStatusOn, h1, h0, verdictOf]
    · simp [otherChannel, hu]
  · simp [commandStatusOn, hs, verdictOf]

theorem commandStatus_exit_status_witness :
    commandStatus (constExec "out".toList "err".toList (some (.exitError (some 1))))
        ["go".toList, "vet".toList, "./.".toList] "go vet".toList false true Sys.init
      = ((⟨[["go".toList, "vet".toList, "./.".toList]], []⟩ : Sys).report
          (.mustPass "go vet".toList "  err".toList), .ok 1) :=
  ((commandStatus_exit_status (constExec "out".toList "err".toList (some (.exitError (some 1))))
    ["go".toList, "vet".toList, "./.".toList] "go vet".toList true Sys.init
    ⟨[["go".toList, "vet".toList, "./.".toList]], []⟩ "out".toList "err".toList 1 rfl).1
    rfl).1

/-! ## The aggregation of `checkFiles` -/

theorem checkFiles_eq_runTools (ex : Exec) (lock : Bool) (files : List Str) (st : Sys) :
    checkFiles ex lock files st = runTools ex (toolsOf lock files) st 0 := by
  cases lock <;>
    simp only [checkFiles, toolsOf, runTools, gofmt, golint, vet, errcheck, dep, Step.andThen,
      List.append_nil, List.cons_append, List.nil_append, Bool.not_false, Bool.not_true,
      if_true, if_false, Bool.false_eq_true]
  all_goals
    repeat' split
    all_goals simp_all

theorem run_trace (ex : Exec) (c : List Str) (st : Sys) :
    (run ex c st).1.trace = st.trace ++ [c] ∧ (run ex c st).1.stderr = st.stderr := by
  simp only [run]
  split <;> simp

theorem run_of_exitStatus {ex : Exec} {c : List Str} {st : Sys} {s : Int}
    (h : (ex st.trace c).exitStatus? = some s) :
    run ex c st = ({ st with trace := st.trace ++ [c] },
      .ok ((ex st.trace c).stdout, (ex st.trace c).stderr, s)) := by
  simp only [run]
  unfold Proc.exitStatus? at h
  split <;> simp_all

theorem run_of_other {ex : Exec} {c : List Str} {st : Sys}
    (h : (ex st.trace c).err = some .other) :
    run ex c st = ({ st with trace := st.trace ++ [c] }, .error (.executing c)) := by
  unfold run
  simp [h]

/-- The contribution of `commandStatus` is 1 exactly when its verdict is not
`pass`. -/
theorem commandStatusOn_snd (o e : Str) (s : Int) (what : Str) (cs us : Bool) :
    (commandStatusOn o e s what cs us).2
      = if verdictOf (commandStatusOn o e s what cs us).1 ≠ .pass then 1 else 0 := by
  simp only [commandStatusOn]
  split_ifs <;> simp_all [verdictOf]

theorem commandStatus_of_exitStatus {ex : Exec} {st : Sys} (t : Tool) {s : Int}
    (h : (ex st.trace t.cmd).exitStatus? = some s) :
    commandStatus ex t.cmd t.what t.checkStdout t.useStderr st
        = (⟨st.trace ++ [t.cmd], st.stderr ++ (t.report? (ex st.trace t.cmd)).toList⟩,
          .ok (if t.verdict? (ex st.trace t.cmd) ≠ some .pass then 1 else 0)) := by
  rw [commandStatus_of_run (run_of_exitStatus h)]
  have hv : t.verdict? (ex st.trace t.cmd)
      = some (verdictOf (commandStatusOn (ex st.trace t.cmd).stdout (ex st.trace t.cmd).stderr s
          t.what t.checkStdout t.useStderr).1) := by
    simp [Tool.verdict?, h]
  have hr : t.report? (ex st.trace t.cmd)
      = (commandStatusOn (ex st.trace t.cmd).stdout (ex st.trace t.cmd).stderr s
          t.what t.checkStdout t.useStderr).1 := by
    simp [Tool.report?, h]
  have hn := commandStatusOn_snd (ex st.trace t.cmd).stdout (ex st.trace t.cmd).stderr s
    t.what t.checkStdout t.useStderr
  rw [hv, hr]
  generalize commandStatusOn (ex st.trace t.cmd).stdout (ex st.trace t.cmd).stderr s
    t.what t.checkStdout t.useStderr = r at hn ⊢
  obtain ⟨r1, n⟩ := r
  cases r1 with
  | none => simp_all
  | some r => simp_all [Sys.report]

theorem commandStatus_of_other {ex : Exec} {st : Sys} (t : Tool)
    (h : (ex st.trace t.cmd).err = some .other) :
    commandStatus ex t.cmd t.what t.checkStdout t.useStderr st
      = ({ st with trace := st.trace ++ [t.cmd] }, .error (.executing t.cmd)) := by
  simp [commandStatus, run_of_other h, Step.andThen]

theorem failures_cons (ex : Exec) (hist : List (List Str)) (t : Tool) (ts : List Tool) :
    failures ex hist (t :: ts)
      = (if t.verdict? (ex hist t.cmd) ≠ some .pass then 1 else 0)
        + failures ex (hist ++ [t.cmd]) ts := by
  unfold failures
  simp only [procsOf, List.filter_cons]
  split <;> simp_all; omega

theorem reportsOf_cons (ex : Exec) (hist : List (List Str)) (t : Tool) (ts : List Tool) :
    reportsOf ex hist (t :: ts)
      = (t.report? (ex hist t.cmd)).toList ++ reportsOf ex (hist ++ [t.cmd]) ts := by
  unfold reportsOf
  simp only [procsOf, List.filterMap_cons]
  cases t.report? (ex hist t.cmd) <;> simp

/-- When every process yields an exit status the generic loop runs the whole
table, in order, collects the reports and adds the number of verdicts that are
not `pass`. -/
theorem runTools_ok (ex : Exec) (hex : ∀ h c, ((ex h c).exitStatus?).isSome = true) :
    ∀ (ts : List Tool) (st : Sys) (acc : Int),
      runTools ex ts st acc
        = (⟨st.trace ++ ts.map Tool.cmd, st.stderr ++ reportsOf ex st.trace ts⟩,
          .ok (acc + (failures ex st.trace ts : Nat))) := by
  intro ts
  induction ts with
  | nil => intro st acc; simp [runTools, failures, procsOf, reportsOf]
  | cons t ts ih =>
    intro st acc
    obtain ⟨s, hs⟩ := Option.isSome_iff_exists.mp (hex st.trace t.cmd)
    simp only [runTools, commandStatus_of_exitStatus t hs, Step.andThen, ih, failures_cons,
      reportsOf_cons, List.map_cons]
    refine Prod.ext ?_ ?_
    · simp
    · simp only [Except.ok.injEq]
      split <;> simp; omega

/-- When a process of the table cannot be started, the generic loop ends
there: the tools before it have run, the ones after it have not. -/
theorem runTools_fatal (ex : Exec) :
    ∀ (ts1 : List Tool) (t : Tool) (ts2 : List Tool) (st : Sys) (acc : Int),
      (∀ tp ∈ procsOf ex st.trace ts1, (tp.2.exitStatus?).isSome = true) →
      (ex (st.trace ++ ts1.map Tool.cmd) t.cmd).err = some .other →
      runTools ex (ts1 ++ t :: ts2) st acc
        = (⟨st.trace ++ ts1.map Tool.cmd ++ [t.cmd], st.stderr ++ reportsOf ex st.trace ts1⟩,
          .error (.executing t.cmd)) := by
  intro ts1
  induction ts1 with
  | nil =>
    intro t ts2 st acc _ ht
    simp only [List.map_nil, List.append_nil] at ht
    simp [runTools, commandStatus_of_other t ht, Step.andThen, reportsOf, procsOf]
  | cons u us ih =>
    intro t ts2 st acc hus ht
    obtain ⟨s, hs⟩ := Option.isSome_iff_exists.mp (hus (u, ex st.trace u.cmd) (by simp [procsOf]))
    have hrec := ih t ts2
      ⟨st.trace ++ [u.cmd], st.stderr ++ (u.report? (ex st.trace u.cmd)).toList⟩
      (acc + if u.verdict? (ex st.trace u.cmd) ≠ some Verdict.pass then 1 else 0)
      (fun tp htp => hus tp (by simp [procsOf, htp])) (by simpa using ht)
    simp only [List.cons_append, runTools, commandStatus_of_exitStatus u hs, Step.andThen]
    refine Eq.trans hrec ?_
    simp [reportsOf_cons]

theorem procsOf_length (ex : Exec) : ∀ (ts : List Tool) (hist : List (List Str)),
    (procsOf ex hist ts).length = ts.length := by
  intro ts
  induction ts with
  | nil => intro hist; rfl
  | cons t ts ih => intro hist; simp [procsOf, ih]

theorem failures_le (ex : Exec) (hist : List (List Str)) (ts : List Tool) :
    failures ex hist ts ≤ ts.length := by
  unfold failures
  exact (List.length_filter_le _ _).trans (procsOf_length ex ts hist).le

theorem failures_eq_zero (ex : Exec) (hist : List (List Str)) (ts : List Tool) :
    failures ex hist ts = 0 ↔ ∀ tp ∈ procsOf ex hist ts, tp.1.verdict? tp.2 = some .pass := by
  unfold failures
  simp [List.length_eq_zero, List.filter_eq_nil_iff]

theorem toolsOf_length (lock : Bool) (files : List Str) : (toolsOf lock files).length ≤ 5 := by
  cases lock <;> simp [toolsOf]

/-- C3: for every file list and every outcome of the tools in which each
process yields an exit status, `checkFiles` runs gofmt, golint, go vet,
errcheck and (when `Gopkg.lock` exists) dep status once each, in that order,
whatever the earlier tools returned, writes the report of each, and returns
the number of tools whose verdict is not `pass`; that number is at most 5 and
is 0 exactly when every tool that was run passed. -/
theorem checkFiles_counts_failures (ex : Exec) (lock : Bool) (files : List Str) (st : Sys)
    (hex : ∀ h c, ((ex h c).exitStatus?).isSome = true) :
    checkFiles ex lock files st
        = (⟨st.trace ++ (toolsOf lock files).map Tool.cmd,
            st.stderr ++ reportsOf ex st.trace (toolsOf lock files)⟩,
          .ok (failures ex st.trace (toolsOf lock files) : Nat)) ∧
      (toolsOf lock files).map Tool.cmd
        = [["gofmt".toList, "-l".toList] ++ files, ["golint".toList] ++ dirs files,
            ["go".toList, "vet".toList] ++ dirs files, ["errcheck".toList] ++ dirs files]
          ++ (if lock then [["dep".toList, "status".toList]] else []) ∧
      failures ex st.trace (toolsOf lock files) ≤ 5 ∧
      (failures ex st.trace (toolsOf lock files) = 0 ↔
        ∀ tp ∈ procsOf ex st.trace (toolsOf lock files), tp.1.verdict? tp.2 = some .pass) := by
  refine ⟨?_, ?_, ?_, failures_eq_zero _ _ _⟩
  · rw [checkFiles_eq_runTools, runTools_ok ex hex]
    simp
  · cases lock <;> simp [toolsOf]
  · exact (failures_le _ _ _).trans (toolsOf_length _ _)

theorem checkFiles_counts_failures_witness :
    (checkFiles (constExec "a.go\n".toList [] (some (.exitError (some 3)))) true
        ["a.go".toList] Sys.init).2 = .ok 5 := by
  have h := (checkFiles_counts_failures
    (constExec "a.go\n".toList [] (some (.exitError (some 3)))) true ["a.go".toList] Sys.init
    (fun _ _ => rfl)).1
  rw [h]
  rfl

/-- C4 as stated fails: when golint cannot be started, `run` ends the whole
run; gofmt and golint are the only commands executed, nothing is reported and
no value is returned. -/
theorem checkFiles_start_failure_counterexample :
    checkFiles (missingExec "golint".toList) true ["a.go".toList] Sys.init
      = (⟨[["gofmt".toList, "-l".toList, "a.go".toList], ["golint".toList, "./.".toList]], []⟩,
        .error (.executing ["golint".toList, "./.".toList])) := by
  rfl

theorem verdict?_executionError (t : Tool) (p : Proc) (s : Int)
    (hs : p.exitStatus? = some s) (h0 : s ≠ 0)
    (hrule : if t.checkStdout then p.stdout = [] else s ≠ 1) :
    t.report? p = some (.errorRunning t.what p.stderr) ∧
      t.verdict? p = some (.executionError p.stderr) := by
  cases hcs : t.checkStdout <;> simp [hcs] at hrule <;>
    simp [Tool.report?, Tool.verdict?, hs, commandStatusOn, hcs, hrule, h0, verdictOf]

/-- C4, amended: a tool whose process cannot be found or started is not
isolated. `run` then ends the whole run (`log.Fatalf`, exit code 1): the tools
before it have run and been reported, its own command is the last one
executed, and no later tool is invoked. What is isolated is an unexpected exit
status: when every process yields an exit status, a tool that ends with a
non-zero status (not 1 for a tool under the exit-status rule, nothing on the
standard output for a tool under the output-presence rule) is an execution
error reported with its standard error, the result is at least 1, and the
whole table, the later tools included, is run. -/
theorem checkFiles_execution_error (ex : Exec) (lock : Bool) (files : List Str) (st : Sys) :
    (∀ (ts1 : List Tool) (t : Tool) (ts2 : List Tool), toolsOf lock files = ts1 ++ t :: ts2 →
      (∀ tp ∈ procsOf ex st.trace ts1, (tp.2.exitStatus?).isSome = true) →
      (ex (st.trace ++ ts1.map Tool.cmd) t.cmd).err = some .other →
      checkFiles ex lock files st
        = (⟨st.trace ++ ts1.map Tool.cmd ++ [t.cmd], st.stderr ++ reportsOf ex st.trace ts1⟩,
          .error (.executing t.cmd))) ∧
    ((∀ h c, ((ex h c).exitStatus?).isSome = true) →
      ∀ tp ∈ procsOf ex st.trace (toolsOf lock files), ∀ s : Int,
        tp.2.exitStatus? = some s → s ≠ 0 →
        (if tp.1.checkStdout then tp.2.stdout = [] else s ≠ 1) →
        tp.1.verdict? tp.2 = some (.executionError tp.2.stderr) ∧
          Report.errorRunning tp.1.what tp.2.stderr ∈ (checkFiles ex lock files st).1.stderr ∧
          (checkFiles ex lock files st).1.trace
            = st.trace ++ (toolsOf lock files).map Tool.cmd ∧
          ∃ n : Int, (checkFiles ex lock files st).2 = .ok n ∧ 1 ≤ n) := by
  constructor
  · intro ts1 t ts2 hts h1 ht
    rw [checkFiles_eq_runTools, hts]
    exact runTools_fatal ex ts1 t ts2 st 0 h1 ht
  · intro hex tp htp s hs h0 hrule
    obtain ⟨hr, hv⟩ := verdict?_executionError tp.1 tp.2 s hs h0 hrule
    rw [checkFiles_eq_runTools, runTools_ok ex hex]
    refine ⟨hv, ?_, rfl, _, rfl, ?_⟩
    · simp only [List.mem_append]
      right
      unfold reportsOf
      exact List.mem_filterMap.mpr ⟨tp, htp, hr⟩
    · have hpos : 0 < failures ex st.trace (toolsOf lock files) := by
        unfold failures
        exact List.length_pos_of_mem (List.mem_filter.mpr ⟨htp, by simp [hv]⟩)
      omega

theorem checkFiles_execution_error_witness :
    checkFiles (missingExec "golint".toList) true ["a.go".toList] Sys.init
        = (⟨[["gofmt".toList, "-l".toList, "a.go".toList], ["golint".toList, "./.".toList]], []⟩,
          .error (.executing ["golint".toList, "./.".toList])) ∧
      (checkFiles (constExec [] "boom".toList (some (.exitError (some 2)))) false
          ["a.go".toList] Sys.init).1.trace
        = [["gofmt".toList, "-l".toList, "a.go".toList], ["golint".toList, "./.".toList],
            ["go".toList, "vet".toList, "./.".toList], ["errcheck".toList, "./.".toList]] :=
  ⟨(checkFiles_execution_error (missingExec "golint".toList) true ["a.go".toList] Sys.init).1
      [⟨["gofmt".toList, "-l".toList, "a.go".toList], "gofmt".toList, true, false⟩]
      ⟨["golint".toList, "./.".toList], "golint".toList, true, false⟩
      [⟨["go".toList, "vet".toList, "./.".toList], "go vet".toList, false, true⟩,
        ⟨["errcheck".toList, "./.".toList], "errcheck".toList, false, false⟩,
        ⟨["dep".toList, "status".toList], "dep status".toList, false, true⟩]
      (by decide) (by decide) (by decide),
    ((checkFiles_execution_error (constExec [] "boom".toList (some (.exitError (some 2)))) false
      ["a.go".toList] Sys.init).2 (fun _ _ => rfl)
      (⟨["gofmt".toList, "-l".toList, "a.go".toList], "gofmt".toList, true, false⟩,
        ⟨[], "boom".toList, some (.exitError (some 2))⟩)
      (by decide) 2 rfl (by decide) (by decide)).2.2.1⟩

/-! ## Properties of `filepath.Clean` -/

theorem validName_iff (c : Str) :
    validName c = true ↔ c ≠ [] ∧ c ≠ ".".toList ∧ c ≠ "..".toList ∧ '/' ∉ c := by
  simp [validName, and_assoc]

theorem cleanStep_valid (rooted : Bool) (out : List Str) (c : Str) (hc : validName c = true) :
    cleanStep rooted out c = c :: out := by
  obtain ⟨h1, h2, h3, _⟩ := (validName_iff c).mp hc
  have h2 : c ≠ ['.'] := h2
  have h3 : c ≠ ['.', '.'] := h3
  simp [cleanStep, h1, h2, h3]

theorem foldl_cleanStep_valid (rooted : Bool) :
    ∀ (cs : List Str) (out : List Str), (∀ c ∈ cs, validName c = true) →
      cs.foldl (cleanStep rooted) out = cs.reverse ++ out := by
  intro cs
  induction cs with
  | nil => intro out _; rfl
  | cons c cs ih =>
    intro out h
    rw [List.foldl_cons, cleanStep_valid rooted out c (h c (List.mem_cons_self _ _)),
      ih _ (fun d hd => h d (List.mem_cons_of_mem _ hd))]
    simp

theorem cleanStep_dotdot (j : Nat) :
    cleanStep false (List.replicate j "..".toList) "..".toList
      = List.replicate (j + 1) "..".toList := by
  cases j with
  | zero => decide
  | succ j =>
    have h1 : ("..".toList = ([] : Str)) = False := by decide
    have h2 : ("..".toList = ".".toList) = False := by decide
    simp [cleanStep, List.replicate_succ, h1, h2]

theorem foldl_cleanStep_dotdot :
    ∀ (k j : Nat), (List.replicate k "..".toList).foldl (cleanStep false)
        (List.replicate j "..".toList) = List.replicate (j + k) "..".toList := by
  intro k
  induction k with
  | zero => intro j; rfl
  | succ k ih =>
    intro j
    rw [List.replicate_succ, List.foldl_cons, cleanStep_dotdot, ih]
    congr 1
    omega

theorem intercalate_cons_eq (sep x : Str) (xs : List Str) :
    ∃ rest, sep.intercalate (x :: xs) = x ++ rest := by
  cases xs with
  | nil => exact ⟨[], by simp [List.intercalate]⟩
  | cons y ys => exact ⟨sep ++ sep.intercalate (y :: ys), by simp [List.intercalate]⟩

/-- The elements of a cleaned path: some `..` elements followed by valid
names. -/
theorem dotdot_valid_no_sep (k : Nat) (R : List Str) (hR : ∀ c ∈ R, validName c = true) :
    ∀ l ∈ List.replicate k "..".toList ++ R, '/' ∉ l := by
  intro l hl
  rcases List.mem_append.mp hl with h | h
  · rw [List.eq_of_mem_replicate h]; decide
  · exact ((validName_iff l).mp (hR l h)).2.2.2

theorem Clean_eq (path : Str) (hne : path ≠ []) (rooted : Bool)
    (hr : decide (path.head? = some '/') = rooted) (out : List Str)
    (hout : ((path.splitOn '/').foldl (cleanStep rooted) []).reverse = out) :
    Clean path =
      if (if rooted = true then ['/'] else []) ++ ['/'].intercalate out = [] then ".".toList
      else (if rooted = true then ['/'] else []) ++ ['/'].intercalate out := by
  subst hr hout
  simp only [Clean, if_neg hne, decide_eq_true_eq]

theorem Clean_rooted (R : List Str) (hR : ∀ c ∈ R, validName c = true) :
    Clean (['/'] ++ ['/'].intercalate R) = ['/'] ++ ['/'].intercalate R := by
  cases R with
  | nil => decide
  | cons r rs =>
    have hsplit : (['/'] ++ ['/'].intercalate (r :: rs)).splitOn '/' = [] :: r :: rs := by
      rw [← intercalate_nil_cons]
      refine List.splitOn_intercalate _ '/' ?_ (by simp)
      intro l hl
      rcases List.mem_cons.mp hl with h | h
      · rw [h]; simp
      · exact ((validName_iff l).mp (hR l h)).2.2.2
    have hfold : ([] :: r :: rs).foldl (cleanStep true) [] = (r :: rs).reverse := by
      rw [List.foldl_cons]
      have : cleanStep true [] [] = [] := by simp [cleanStep]
      rw [this, foldl_cleanStep_valid true _ _ hR]
      simp
    rw [Clean_eq _ (by simp) true (by simp) (r :: rs) (by rw [hsplit, hfold]; simp)]
    simp

theorem Clean_relative (k : Nat) (R : List Str) (hR : ∀ c ∈ R, validName c = true)
    (hne : List.replicate k "..".toList ++ R ≠ []) :
    Clean (['/'].intercalate (List.replicate k "..".toList ++ R))
      = ['/'].intercalate (List.replicate k "..".toList ++ R) := by
  obtain ⟨x, xs, hL⟩ := List.exists_cons_of_ne_nil hne
  obtain ⟨rest, hrest⟩ := intercalate_cons_eq ['/'] x xs
  have hx : x ∈ List.replicate k "..".toList ++ R := by rw [hL]; exact List.mem_cons_self _ _
  have hxsep : '/' ∉ x := dotdot_valid_no_sep k R hR x hx
  have hxne : x ≠ [] := by
    rcases List.mem_append.mp hx with h | h
    · rw [List.eq_of_mem_replicate h]; decide
    · exact ((validName_iff x).mp (hR x h)).1
  obtain ⟨a, as, hxa⟩ := List.exists_cons_of_ne_nil hxne
  have ha : a ≠ '/' := by
    intro h
    apply hxsep
    rw [hxa, h]
    exact List.mem_cons_self _ _
  have hpath : ['/'].intercalate (List.replicate k "..".toList ++ R) = a :: (as ++ rest) := by
    rw [hL, hrest, hxa]; rfl
  have hsplit : (['/'].intercalate (List.replicate k "..".toList ++ R)).splitOn '/'
      = List.replicate k "..".toList ++ R :=
    List.splitOn_intercalate _ '/' (dotdot_valid_no_sep k R hR) hne
  have hfold : (List.replicate k "..".toList ++ R).foldl (cleanStep false) []
      = R.reverse ++ List.replicate k "..".toList := by
    rw [List.foldl_append]
    have := foldl_cleanStep_dotdot k 0
    simp only [List.replicate_zero, Nat.zero_add] at this
    rw [this, foldl_cleanStep_valid false _ _ hR]
  rw [Clean_eq _ (by rw [hpath]; simp) false (by rw [hpath]; simp [ha])
    (List.replicate k "..".toList ++ R) (by rw [hsplit, hfold]; simp)]
  have hnil : ['/'].intercalate (List.replicate k "..".toList ++ R) ≠ [] := by
    rw [hpath]; simp
  simp only [Bool.false_eq_true, if_false, List.nil_append, if_neg hnil]

theorem splitOn_no_sep (x : Char) : ∀ (s : Str), ∀ l ∈ s.splitOn x, x ∉ l := by
  intro s
  induction s with
  | nil => intro l hl; simp at hl; simp [hl]
  | cons a s ih =>
    intro l hl
    simp only [List.splitOn, List.splitOnP_cons] at hl ih
    by_cases hax : (a == x) = true
    · rw [if_pos hax] at hl
      rcases List.mem_cons.mp hl with h | h
      · simp [h]
      · exact ih l h
    · rw [if_neg hax] at hl
      cases hsp : List.splitOnP (fun c => c == x) s with
      | nil => rw [hsp] at hl; simp [List.modifyHead] at hl
      | cons hd tl =>
        rw [hsp] at hl ih
        simp only [List.modifyHead, List.mem_cons] at hl
        rcases hl with h | h
        · rw [h]
          intro hmem
          rcases List.mem_cons.mp hmem with h1 | h1
          · exact hax (by simp [h1])
          · exact ih hd (List.mem_cons_self _ _) h1
        · exact ih l (List.mem_cons_of_mem _ h)

/-- The output of `filepath.Clean` while it scans the elements of a path: valid
names, on top of `..` elements that are there only in a path that is not
rooted. -/
theorem cleanStep_normal (rooted : Bool) (out : List Str) (c : Str) (hc : '/' ∉ c)
    (h : ∃ (k : Nat) (R : List Str), out = R ++ List.replicate k "..".toList ∧
      (∀ d ∈ R, validName d = true) ∧ (rooted = true → k = 0)) :
    ∃ (k : Nat) (R : List Str), cleanStep rooted out c = R ++ List.replicate k "..".toList ∧
      (∀ d ∈ R, validName d = true) ∧ (rooted = true → k = 0) := by
  obtain ⟨k, R, hout, hR, hk⟩ := h
  by_cases h1 : c = [] ∨ c = ".".toList
  · exact ⟨k, R, by simp only [cleanStep, if_pos h1, hout], hR, hk⟩
  · by_cases h2 : c = "..".toList
    · subst h2
      cases R with
      | nil =>
        cases hr : rooted with
        | true =>
          have hk0 := hk hr
          subst hk0
          refine ⟨0, [], ?_, by simp, by simp⟩
          simp [hout, cleanStep]
        | false =>
          refine ⟨k + 1, [], ?_, by simp, by simp⟩
          rw [hout, List.nil_append, cleanStep_dotdot]
          simp
      | cons r R =>
        have hr : r ≠ "..".toList := ((validName_iff r).mp (hR r (List.mem_cons_self _ _))).2.2.1
        refine ⟨k, R, ?_, fun d hd => hR d (List.mem_cons_of_mem _ hd), hk⟩
        rw [hout]
        simp only [cleanStep, if_neg h1, if_true, List.cons_append, if_neg hr]
    · have hv : validName c = true := by
        rw [validName_iff]
        exact ⟨fun h => h1 (Or.inl h), fun h => h1 (Or.inr h), h2, hc⟩
      refine ⟨k, c :: R, ?_, ?_, hk⟩
      · rw [cleanStep_valid rooted out c hv, hout]; rfl
      · intro d hd
        rcases List.mem_cons.mp hd with h | h
        · rw [h]; exact hv
        · exact hR d h

theorem foldl_cleanStep_normal (rooted : Bool) :
    ∀ (cs : List Str) (out : List Str), (∀ c ∈ cs, '/' ∉ c) →
      (∃ (k : Nat) (R : List Str), out = R ++ List.replicate k "..".toList ∧
        (∀ d ∈ R, validName d = true) ∧ (rooted = true → k = 0)) →
      ∃ (k : Nat) (R : List Str),
        cs.foldl (cleanStep rooted) out = R ++ List.replicate k "..".toList ∧
        (∀ d ∈ R, validName d = true) ∧ (rooted = true → k = 0) := by
  intro cs
  induction cs with
  | nil => intro out _ h; exact h
  | cons c cs ih =>
    intro out hcs h
    rw [List.foldl_cons]
    exact ih _ (fun d hd => hcs d (List.mem_cons_of_mem _ hd))
      (cleanStep_normal rooted out c (hcs c (List.mem_cons_self _ _)) h)

/-- The shape of a cleaned path: `.`, or a rooted path of valid names, or some
`..` elements followed by valid names. -/
theorem Clean_shape (path : Str) :
    Clean path = ".".toList ∨
    (∃ R : List Str, (∀ d ∈ R, validName d = true) ∧ Clean path = ['/'] ++ ['/'].intercalate R) ∨
    (∃ (k : Nat) (R : List Str), (∀ d ∈ R, validName d = true) ∧
      List.replicate k "..".toList ++ R ≠ [] ∧
      Clean path = ['/'].intercalate (List.replicate k "..".toList ++ R)) := by
  by_cases hp : path = []
  · left; simp [Clean, hp]
  · obtain ⟨k, R, hfold, hR, hk⟩ := foldl_cleanStep_normal (decide (path.head? = some '/'))
      (path.splitOn '/') [] (splitOn_no_sep '/' path) ⟨0, [], by simp, by simp, by simp⟩
    have hrev : ∀ d ∈ R.reverse, validName d = true := fun d hd => hR d (List.mem_reverse.mp hd)
    rw [Clean_eq path hp (decide (path.head? = some '/')) rfl
      (List.replicate k "..".toList ++ R.reverse) (by rw [hfold]; simp)]
    cases hr : decide (path.head? = some '/') with
    | true =>
      right; left
      have hk0 := hk hr
      subst hk0
      exact ⟨R.reverse, hrev, by simp⟩
    | false =>
      simp only [Bool.false_eq_true, if_false, List.nil_append]
      by_cases hs : ['/'].intercalate (List.replicate k "..".toList ++ R.reverse) = []
      · left; rw [if_pos hs]
      · right; right
        refine ⟨k, R.reverse, hrev, ?_, by rw [if_neg hs]⟩
        intro hnil
        apply hs
        rw [hnil]
        rfl

/-- Cleaning a cleaned path changes nothing. -/
theorem Clean_idem (path : Str) : Clean (Clean path) = Clean path := by
  rcases Clean_shape path with h | ⟨R, hR, h⟩ | ⟨k, R, hR, hne, h⟩
  · rw [h]; decide
  · rw [h]; exact Clean_rooted R hR
  · rw [h]; exact Clean_relative k R hR hne

theorem Clean_ne_nil (path : Str) : Clean path ≠ [] := by
  by_cases hp : path = []
  · rw [hp]; decide
  · rw [Clean_eq path hp _ rfl _ rfl]
    generalize (if decide (path.head? = some '/') = true then ['/'] else []) ++
      ['/'].intercalate
        ((path.splitOn '/').foldl (cleanStep (decide (path.head? = some '/'))) []).reverse = r
    by_cases h : r = []
    · rw [if_pos h]; decide
    · rw [if_neg h]; exact h

/-- The value `filepath.Join(filepath.Dir(f))` of source `dirs` is
`filepath.Dir(f)`. -/
theorem Join_Dir (f : Str) : Join [Dir f] = Dir f := by
  have hne : Dir f ≠ [] := Clean_ne_nil _
  obtain ⟨a, as, h⟩ := List.exists_cons_of_ne_nil hne
  have hj : Join [Dir f] = Clean (Dir f) := by
    rw [h]
    simp [Join, List.intercalate]
  rw [hj]
  exact Clean_idem _

/-! ## The Directory Set -/

theorem mem_mapSet (m : List Str) (k d : Str) : d ∈ mapSet m k ↔ d ∈ m ∨ d = k := by
  unfold mapSet
  split
  · constructor
    · exact Or.inl
    · rintro (h | h)
      · exact h
      · rw [h]; assumption
  · simp

theorem mapSet_nodup (m : List Str) (k : Str) (h : m.Nodup) : (mapSet m k).Nodup := by
  unfold mapSet
  split
  · exact h
  · rename_i hk
    exact List.Nodup.append h (List.nodup_singleton k) (by simpa using hk)

theorem sortStrings_perm (xs : List Str) : (sortStrings xs).Perm xs :=
  List.perm_insertionSort _ xs

theorem mem_sortStrings (xs : List Str) (d : Str) : d ∈ sortStrings xs ↔ d ∈ xs :=
  (sortStrings_perm xs).mem_iff

/-- Sorting distinct strings gives a strictly ascending list. -/
theorem sortStrings_strict (xs : List Str) (h : xs.Nodup) :
    (sortStrings xs).Sorted (· < ·) :=
  List.Sorted.lt_of_le (List.sorted_insertionSort (· ≤ ·) xs) ((sortStrings_perm xs).nodup_iff.mpr h)

/-- The result of `sort.Strings` does not depend on the order of its input:
the order in which a Go map is ranged over does not show after the sort. -/
theorem sortStrings_of_perm (xs ys : List Str) (h : xs.Perm ys) :
    sortStrings xs = sortStrings ys :=
  List.eq_of_perm_of_sorted (r := (· ≤ ·))
    ((sortStrings_perm xs).trans (h.trans (sortStrings_perm ys).symm))
    (List.sorted_insertionSort (· ≤ ·) xs) (List.sorted_insertionSort (· ≤ ·) ys)

theorem dirsMap_fold (g : Str → Str) : ∀ (files : List Str) (m : List Str), m.Nodup →
    ((files.foldl (fun m f => mapSet m (g f)) m).Nodup ∧
      ∀ d, d ∈ files.foldl (fun m f => mapSet m (g f)) m ↔ d ∈ m ∨ ∃ f ∈ files, d = g f) := by
  intro files
  induction files with
  | nil => intro m hm; simp [hm]
  | cons f fs ih =>
    intro m hm
    obtain ⟨h1, h2⟩ := ih (mapSet m (g f)) (mapSet_nodup m (g f) hm)
    refine ⟨h1, fun d => ?_⟩
    rw [List.foldl_cons, h2, mem_mapSet]
    simp only [List.mem_cons, exists_eq_or_imp]
    tauto

/-- In source `dirs` any order of ranging over the map gives the same result. -/
theorem dirs_range_order (files ks : List Str) (h : ks.Perm (dirsMap files)) :
    sortStrings (ks.map fun d => "./".toList ++ d) = dirs files :=
  sortStrings_of_perm _ _ (h.map _)

theorem setDirsLoop_ok (w : World) (ig : List Str) :
    ∀ (files m m1 : List Str), m.Nodup → Helper.setDirsLoop w ig files m = .ok m1 →
      m1.Nodup ∧ ∀ d, d ∈ m1 ↔ d ∈ m ∨ ∃ f ∈ files, ig.any (fun i => w.zglob i f) = false ∧
        ((w.stat f = some true ∧ d = f) ∨ (w.stat f = some false ∧ d = Dir f)) := by
  intro files
  induction files with
  | nil =>
    intro m m1 hm h
    simp only [Helper.setDirsLoop, Except.ok.injEq] at h
    subst h
    exact ⟨hm, by simp⟩
  | cons f fs ih =>
    intro m m1 hm h
    simp only [Helper.setDirsLoop] at h
    by_cases hig : ig.any (fun i => w.zglob i f) = true
    · rw [if_pos hig] at h
      obtain ⟨h1, h2⟩ := ih m m1 hm h
      refine ⟨h1, fun d => ?_⟩
      rw [h2]
      simp only [List.mem_cons, exists_eq_or_imp, hig]
      simp
    · rw [if_neg hig] at h
      have hig : ig.any (fun i => w.zglob i f) = false := by simpa using hig
      cases hst : w.stat f with
      | none => simp [hst] at h
      | some b =>
        cases b with
        | true =>
          simp only [hst] at h
          obtain ⟨h1, h2⟩ := ih _ m1 (mapSet_nodup m f hm) h
          refine ⟨h1, fun d => ?_⟩
          rw [h2, mem_mapSet]
          constructor
          · rintro ((h | h) | ⟨g, hg, hP⟩)
            · exact Or.inl h
            · exact Or.inr ⟨f, List.mem_cons_self _ _, hig, Or.inl ⟨hst, h⟩⟩
            · exact Or.inr ⟨g, List.mem_cons_of_mem _ hg, hP⟩
          · rintro (h | ⟨g, hg, hP⟩)
            · exact Or.inl (Or.inl h)
            · rcases List.mem_cons.mp hg with rfl | hg
              · rcases hP.2 with ⟨_, hd⟩ | ⟨h3, _⟩
                · exact Or.inl (Or.inr hd)
                · rw [hst] at h3; cases h3
              · exact Or.inr ⟨g, hg, hP⟩
        | false =>
          simp only [hst] at h
          obtain ⟨h1, h2⟩ := ih _ m1 (mapSet_nodup m (Dir f) hm) h
          refine ⟨h1, fun d => ?_⟩
          rw [h2, mem_mapSet]
          constructor
          · rintro ((h | h) | ⟨g, hg, hP⟩)
            · exact Or.inl h
            · exact Or.inr ⟨f, List.mem_cons_self _ _, hig, Or.inr ⟨hst, h⟩⟩
            · exact Or.inr ⟨g, List.mem_cons_of_mem _ hg, hP⟩
          · rintro (h | ⟨g, hg, hP⟩)
            · exact Or.inl (Or.inl h)
            · rcases List.mem_cons.mp hg with rfl | hg
              · rcases hP.2 with ⟨h3, _⟩ | ⟨_, hd⟩
                · rw [hst] at h3; cases h3
                · exact Or.inl (Or.inr hd)
              · exact Or.inr ⟨g, hg, hP⟩

/-- C6: the Directory Set computed from a list of file paths is in strictly
ascending order, so without duplicates. In source `dirs` its elements are
exactly the strings `./` followed by `filepath.Dir(f)` for the input files
`f`. In source `setDirs` (started with no directory, as `main` does) its
elements are exactly the containing directories of the selected files that no
ignore pattern matches, a selected path that is itself a directory standing
for itself. -/
theorem directory_set_sorted (files : List Str) :
    ((dirs files).Sorted (· < ·) ∧ (dirs files).Nodup ∧
      ∀ d, d ∈ dirs files ↔ ∃ f ∈ files, d = "./".toList ++ Dir f) ∧
    (∀ (w : World) (h h1 : Helper.helper) (st st0 st1 : Sys), h.dirs = [] →
      Helper.selectFiles w h st = (st0, .ok files) →
      Helper.setDirs w h st = (st1, .ok h1) →
      h1.dirs.Sorted (· < ·) ∧ h1.dirs.Nodup ∧
        ∀ d, d ∈ h1.dirs ↔ ∃ f ∈ files, h.ignore.any (fun i => w.zglob i f) = false ∧
          ((w.stat f = some true ∧ d = f) ∨ (w.stat f = some false ∧ d = Dir f))) := by
  constructor
  · obtain ⟨hnd, hmem⟩ := dirsMap_fold (fun f => Join [Dir f]) files [] List.nodup_nil
    have hinj : Function.Injective (fun d : Str => "./".toList ++ d) :=
      fun a b hab => List.append_cancel_left hab
    have hnd2 : ((dirsMap files).map fun d => "./".toList ++ d).Nodup := hnd.map hinj
    refine ⟨sortStrings_strict _ hnd2, (sortStrings_perm _).nodup_iff.mpr hnd2, fun d => ?_⟩
    unfold dirs
    rw [mem_sortStrings, List.mem_map]
    constructor
    · rintro ⟨k, hk, rfl⟩
      obtain h | ⟨f, hf, rfl⟩ := (hmem k).mp hk
      · simp at h
      · exact ⟨f, hf, by rw [Join_Dir]⟩
    · rintro ⟨f, hf, rfl⟩
      exact ⟨Dir f, (hmem _).mpr (Or.inr ⟨f, hf, (Join_Dir f).symm⟩), rfl⟩
  · intro w h h1 st st0 st1 hd hsel hset
    simp only [Helper.setDirs, hsel, Step.andThen] at hset
    cases hloop : Helper.setDirsLoop w h.ignore files [] with
    | error e => simp [hloop] at hset
    | ok m =>
      simp only [hloop, Prod.mk.injEq, Except.ok.injEq] at hset
      obtain ⟨_, rfl⟩ := hset
      obtain ⟨hnd, hmem⟩ := setDirsLoop_ok w h.ignore files [] m List.nodup_nil hloop
      simp only [hd, List.nil_append]
      refine ⟨sortStrings_strict _ hnd, (sortStrings_perm _).nodup_iff.mpr hnd, fun d => ?_⟩
      rw [mem_sortStrings, hmem]
      simp

theorem directory_set_sorted_witness :
    (Helper.setDirs (worldOf [] [] (constExec [] [] none) .file)
        (helperOf false false ["b/x.go".toList, "a/y.go".toList, "b/z.go".toList])
        Sys.init).2.toOption.map Helper.helper.dirs
      = some ["a".toList, "b".toList] ∧
    (["a".toList, "b".toList] : List Str).Sorted (· < ·) := by
  have h := ((directory_set_sorted ["b/x.go".toList, "a/y.go".toList, "b/z.go".toList]).2
    (worldOf [] [] (constExec [] [] none) .file)
    (helperOf false false ["b/x.go".toList, "a/y.go".toList, "b/z.go".toList])
    ⟨false, false, "gometalinter".toList, false, [], ["a".toList, "b".toList],
      ["b/x.go".toList, "a/y.go".toList, "b/z.go".toList], []⟩
    Sys.init Sys.init Sys.init rfl rfl rfl).1
  exact ⟨rfl, h⟩

/-! ## Source selection and filter -/

mutual
theorem walk_keeps (fn : WalkFunc) (P : Str → Prop) (hfn : fn.Keeps P) (path : Str) :
    ∀ (n : Node) (files : List Str), (∀ f ∈ files, P f) → ∀ f ∈ (walk fn path n files).1, P f
  | .file, files, h => by simpa [walk] using hfn path false false files h
  | .bad, files, h => by simpa [walk] using hfn path false true files h
  | .noRead, files, h => by simpa [walk] using hfn path true true files h
  | .dir es, files, h => by
      have h1 := hfn path true false files h
      simp only [walk]
      rcases hr : fn path true false files with ⟨files1, r⟩
      rw [hr] at h1
      cases r with
      | nil => exact walkEntries_keeps fn P hfn path es files1 h1
      | skipDir => exact h1
      | err => exact h1
theorem walkEntries_keeps (fn : WalkFunc) (P : Str → Prop) (hfn : fn.Keeps P) (path : Str) :
    ∀ (es : Entries) (files : List Str), (∀ f ∈ files, P f) →
      ∀ f ∈ (walkEntries fn path es files).1, P f
  | .nil, files, h => by simpa [walkEntries] using h
  | .cons name child rest, files, h => by
      have h1 := walk_keeps fn P hfn (Join [path, name]) child files h
      simp only [walkEntries]
      rcases hr : walk fn (Join [path, name]) child files with ⟨files1, r⟩
      rw [hr] at h1
      cases r with
      | nil => exact walkEntries_keeps fn P hfn path rest files1 h1
      | skipDir =>
        simp only
        split
        · exact walkEntries_keeps fn P hfn path rest files1 h1
        · exact h1
      | err => exact h1
end

theorem CheckGoFiles.simple_walkFn_keeps : CheckGoFiles.walkFn.Keeps (fun f => isGoFile f = true) := by
  intro path d e files h f hf
  simp only [CheckGoFiles.walkFn] at hf
  split_ifs at hf with h1 h2 h3
  · exact h f hf
  · exact h f hf
  · rcases List.mem_append.mp hf with hf | hf
    · exact h f hf
    · rw [List.mem_singleton.mp hf]; exact h3
  · exact h f hf

theorem Helper.helper_walkFn_keeps : Helper.walkFn.Keeps (fun f => isGoFile f = true) := by
  intro path d e files h f hf
  simp only [Helper.walkFn] at hf
  split_ifs at hf with h1 h2 h3
  · exact h f hf
  · exact h f hf
  · rcases List.mem_append.mp hf with hf | hf
    · exact h f hf
    · rw [List.mem_singleton.mp hf]; exact h3
  · exact h f hf

theorem Walk_keeps (fn : WalkFunc) (P : Str → Prop) (hfn : fn.Keeps P) (root : Str) (n : Node) :
    ∀ f ∈ (Walk root fn n []).1, P f := by
  have h := walk_keeps fn P hfn root n [] (by simp)
  unfold Walk
  split
  · rename_i files1 hr
    rw [hr] at h
    exact h
  · exact h

theorem CheckGoFiles.simple_allGoFiles_isGoFile (w : World) (st st1 : Sys) (files : List Str)
    (h : CheckGoFiles.allGoFiles w st = (st1, .ok files)) : ∀ f ∈ files, isGoFile f = true := by
  have hk := Walk_keeps _ _ CheckGoFiles.simple_walkFn_keeps ".".toList w.tree
  unfold CheckGoFiles.allGoFiles at h
  split at h
  · rename_i files1 hr
    rw [hr] at hk
    simp only [Prod.mk.injEq, Except.ok.injEq] at h
    rw [← h.2]; exact hk
  · simp at h

theorem Helper.helper_allGoFiles_isGoFile (w : World) (st st1 : Sys) (files : List Str)
    (h : Helper.allGoFiles w st = (st1, .ok files)) : ∀ f ∈ files, isGoFile f = true := by
  have hk := Walk_keeps _ _ Helper.helper_walkFn_keeps ".".toList w.tree
  unfold Helper.allGoFiles at h
  split at h
  · rename_i files1 hr
    rw [hr] at hk
    simp only [Prod.mk.injEq, Except.ok.injEq] at h
    rw [← h.2]; exact hk
  · simp at h

theorem linesFrom_isGoFile (from_ : Str) : ∀ f ∈ linesFrom from_, isGoFile f = true := by
  intro f hf
  exact (List.mem_filter.mp hf).2

theorem filteredOutput_isGoFile (output : Str) : ∀ f ∈ filteredOutput output, isGoFile f = true := by
  intro f hf
  exact linesFrom_isGoFile _ f (List.mem_filter.mp hf).1

/-- A step that follows a step ends well only if the first step does. -/
theorem Step.andThen_ok {α β : Type} {r : Step α} {k : α → Sys → Step β} {st : Sys} {b : β}
    (h : r.andThen k = (st, .ok b)) : ∃ a st0, r = (st0, .ok a) ∧ k a st0 = (st, .ok b) := by
  obtain ⟨st0, x⟩ := r
  cases x with
  | ok a => exact ⟨a, st0, rfl, h⟩
  | error e => simp [Step.andThen] at h

theorem CheckGoFiles.simple_commitHookGoFiles_isGoFile (w : World) (st st1 : Sys) (files : List Str)
    (h : CheckGoFiles.commitHookGoFiles w st = (st1, .ok files)) :
    ∀ f ∈ files, isGoFile f = true := by
  obtain ⟨out, st0, _, h2⟩ := Step.andThen_ok h
  simp only [Prod.mk.injEq, Except.ok.injEq] at h2
  rw [← h2.2]
  exact linesFrom_isGoFile _

theorem Helper.helper_commitHookGoFiles_isGoFile (w : World) (st st1 : Sys) (files : List Str)
    (h : Helper.commitHookGoFiles w st = (st1, .ok files)) :
    ∀ f ∈ files, isGoFile f = true := by
  obtain ⟨out, st0, _, h2⟩ := Step.andThen_ok h
  simp only [Prod.mk.injEq, Except.ok.injEq] at h2
  rw [← h2.2]
  exact filteredOutput_isGoFile _

theorem CheckGoFiles.simple_ciGoFiles_isGoFile (w : World) (st st1 : Sys) (files : List Str)
    (h : CheckGoFiles.ciGoFiles w st = (st1, .ok files)) :
    ∀ f ∈ files, isGoFile f = true := by
  obtain ⟨out, st0, _, h2⟩ := Step.andThen_ok h
  simp only at h2
  split_ifs at h2 with hb
  · exact CheckGoFiles.simple_allGoFiles_isGoFile w st0 st1 files h2
  · obtain ⟨out2, st2, _, h3⟩ := Step.andThen_ok h2
    simp only [Prod.mk.injEq, Except.ok.injEq] at h3
    rw [← h3.2]
    exact linesFrom_isGoFile _

theorem Helper.helper_ciGoFiles_isGoFile (w : World) (st st1 : Sys) (files : List Str)
    (h : Helper.ciGoFiles w st = (st1, .ok files)) :
    ∀ f ∈ files, isGoFile f = true := by
  obtain ⟨out, st0, _, h2⟩ := Step.andThen_ok h
  simp only at h2
  split_ifs at h2 with hb
  · exact Helper.helper_allGoFiles_isGoFile w st0 st1 files h2
  · obtain ⟨out2, st2, _, h3⟩ := Step.andThen_ok h2
    simp only [Prod.mk.injEq, Except.ok.injEq] at h3
    rw [← h3.2]
    exact filteredOutput_isGoFile _

/-- C7 as stated fails: in explicit mode a path that does not end in `.go` is
a candidate in both programs; the list restricted to the `.go` paths would be
empty. -/
theorem explicit_mode_extension_counterexample :
    (CheckGoFiles.selectFiles (worldOf ["README.md".toList] [] (constExec [] [] none) .file)
        Sys.init).2 = .ok ["README.md".toList] ∧
    (Helper.selectFiles (worldOf [] [] (constExec [] [] none) .file)
        (helperOf false false ["README.md".toList]) Sys.init).2 = .ok ["README.md".toList] ∧
    ["README.md".toList] ≠ ["README.md".toList].filter isGoFile := by
  refine ⟨rfl, rfl, by decide⟩

/-- C7, amended: in the all-files, commit-hook and CI modes every candidate path
ends in `.go`; in explicit mode the candidates are the paths of the command
line as they were given, whatever their extension. -/
theorem candidates_extension (w : World) :
    (∀ (st st1 : Sys) (files : List Str),
      CheckGoFiles.selectFiles w st = (st1, .ok files) →
      ((w.args.headD [] = "-all".toList ∨ w.args.headD [] = "-commit-hook".toList ∨ w.ci ≠ []) →
        ∀ f ∈ files, isGoFile f = true) ∧
      (w.args.headD [] ≠ "-all".toList → w.args.headD [] ≠ "-commit-hook".toList → w.ci = [] →
        files = w.args)) ∧
    (∀ (h : Helper.helper) (st st1 : Sys) (files : List Str),
      Helper.selectFiles w h st = (st1, .ok files) →
      ((h.all = true ∨ h.hook = true ∨ w.ci ≠ []) → ∀ f ∈ files, isGoFile f = true) ∧
      (h.all = false → h.hook = false → w.ci = [] → files = h.fileArgs)) := by
  constructor
  · intro st st1 files hsel
    simp only [CheckGoFiles.selectFiles] at hsel
    constructor
    · intro hmode
      split_ifs at hsel with h1 h2 h3
      · exact CheckGoFiles.simple_allGoFiles_isGoFile w st st1 files hsel
      · exact CheckGoFiles.simple_commitHookGoFiles_isGoFile w st st1 files hsel
      · exact CheckGoFiles.simple_ciGoFiles_isGoFile w st st1 files hsel
      · rcases hmode with h | h | h
        · exact absurd h h1
        · exact absurd h h2
        · exact absurd h h3
    · intro h1 h2 h3
      rw [if_neg h1, if_neg h2, if_neg (by simpa using h3)] at hsel
      simp only [Prod.mk.injEq, Except.ok.injEq] at hsel
      exact hsel.2.symm
  · intro h st st1 files hsel
    simp only [Helper.selectFiles, Helper.inCI] at hsel
    constructor
    · intro hmode
      split_ifs at hsel with h1 h2 h3
      · exact Helper.helper_allGoFiles_isGoFile w st st1 files hsel
      · exact Helper.helper_commitHookGoFiles_isGoFile w st st1 files hsel
      · exact Helper.helper_ciGoFiles_isGoFile w st st1 files hsel
      · rcases hmode with h | h | h
        · exact absurd h h1
        · exact absurd h h2
        · exact absurd h (by simpa using h3)
    · intro h1 h2 h3
      rw [if_neg (by simp [h1]), if_neg (by simp [h2]), if_neg (by simp [h3])] at hsel
      simp only [Prod.mk.injEq, Except.ok.injEq] at hsel
      exact hsel.2.symm

theorem candidates_extension_witness :
    (∀ f ∈ ["a.go".toList], isGoFile f = true) ∧
    ["README.md".toList] = (helperOf false false ["README.md".toList]).fileArgs :=
  ⟨((candidates_extension
      (worldOf ["-commit-hook".toList] [] (stagedExec "a.go\nREADME.md\n".toList) .file)).1
      Sys.init ⟨[gitStaged], []⟩ ["a.go".toList] rfl).1 (Or.inr (Or.inl rfl)),
    ((candidates_extension (worldOf [] [] (constExec [] [] none) .file)).2
      (helperOf false false ["README.md".toList]) Sys.init Sys.init ["README.md".toList] rfl).2
      rfl rfl rfl⟩

/-! ## Empty selections and the sanity of the arguments -/

theorem Helper.main_eq (w : World) (fl : Helper.Flags) (h1 : Helper.helper)
    (hhelp : fl.help = false) (hload : Helper.loaded w fl = .ok h1) :
    Helper.main w fl =
      (Helper.setDirs w (Helper.parseExtraArgs h1 fl.args) Sys.init).andThen fun h2 st =>
        match Helper.checkArgSanity w h2 with
        | .error f => (st, .error f)
        | .ok _ =>
            if h2.dirs.length = 0 then (st, .ok 0)
            else ((Helper.runMetalinter w h2 st).1, .ok (Helper.runMetalinter w h2 st).2) := by
  unfold Helper.loaded Helper.initial at hload
  simp only [Helper.main, hhelp, Bool.false_eq_true, if_false, hload]

/-- C8 as stated fails: in the configurable pipeline an invocation with no mode
flag, no file argument and no `CI` variable ends with exit code 1. -/
theorem empty_explicit_mode_counterexample :
    Helper.main (worldOf [] [] (constExec [] [] none) exampleTree) (flagsOf false false [])
      = (Sys.init, .error (.badUsage
          "When running outside a CI system, you must pass -all, -commit-hook, or a list of files".toList)) ∧
    exitCode (Helper.main (worldOf [] [] (constExec [] [] none) exampleTree)
      (flagsOf false false [])).2 = 1 := by
  constructor <;> rfl

theorem Helper.parseExtraArgsLoop_gml : ∀ (vs : List Str) (h : Helper.helper),
    (Helper.parseExtraArgsLoop vs true h).fileArgs = h.fileArgs ∧
      (Helper.parseExtraArgsLoop vs true h).all = h.all ∧
      (Helper.parseExtraArgsLoop vs true h).hook = h.hook := by
  intro vs
  induction vs with
  | nil => intro h; exact ⟨rfl, rfl, rfl⟩
  | cons v vs ih =>
    intro h
    simp only [Helper.parseExtraArgsLoop, Bool.true_or, if_true]
    split_ifs
    · exact ih h
    · exact ih _

/-- The file arguments `parseExtraArgs` finds are the arguments before the
first `--` that do not start with a dash; the flags are left as they are. -/
theorem Helper.parseExtraArgsLoop_files : ∀ (vs : List Str) (h : Helper.helper),
    (Helper.parseExtraArgsLoop vs false h).fileArgs = h.fileArgs ++ Helper.fileArguments vs ∧
      (Helper.parseExtraArgsLoop vs false h).all = h.all ∧
      (Helper.parseExtraArgsLoop vs false h).hook = h.hook := by
  intro vs
  induction vs with
  | nil => intro h; exact ⟨by simp [Helper.parseExtraArgsLoop, Helper.fileArguments], rfl, rfl⟩
  | cons v vs ih =>
    intro h
    by_cases h1 : v = "--".toList
    · have hg := Helper.parseExtraArgsLoop_gml vs h
      simp only [Helper.parseExtraArgsLoop, if_pos h1]
      refine ⟨?_, hg.2.1, hg.2.2⟩
      rw [hg.1]
      simp [Helper.fileArguments, h1]
    · have hne : (v != "--".toList) = true := by simpa using h1
      by_cases h2 : "-".toList.isPrefixOf v = true
      · simp only [Helper.parseExtraArgsLoop, if_neg h1, Bool.false_or, h2, if_true]
        obtain ⟨i1, i2, i3⟩ := ih { h with gmlArgs := h.gmlArgs ++ [v] }
        refine ⟨?_, i2, i3⟩
        rw [i1]
        simp only [Helper.fileArguments, List.takeWhile_cons, hne, if_true, List.filter_cons, h2,
          Bool.not_true, Bool.false_eq_true, if_false]
      · have h2f : "-".toList.isPrefixOf v = false := Bool.eq_false_iff.mpr h2
        simp only [Helper.parseExtraArgsLoop, if_neg h1, Bool.false_or, h2f,
          Bool.false_eq_true, if_false]
        obtain ⟨i1, i2, i3⟩ := ih { h with fileArgs := h.fileArgs ++ [v] }
        refine ⟨?_, i2, i3⟩
        rw [i1]
        simp only [Helper.fileArguments, List.takeWhile_cons, hne, if_true, List.filter_cons, h2f,
          Bool.not_false, List.append_assoc, List.singleton_append]

theorem Helper.readIgnoreFiles_fields (w : World) : ∀ (files : List Str) (h h1 : Helper.helper),
    Helper.readIgnoreFiles w files h = .ok h1 →
      h1.fileArgs = h.fileArgs ∧ h1.all = h.all ∧ h1.hook = h.hook := by
  intro files
  induction files with
  | nil =>
    intro h h1 hr
    simp only [Helper.readIgnoreFiles, Except.ok.injEq] at hr
    rw [← hr]
    exact ⟨rfl, rfl, rfl⟩
  | cons f fs ih =>
    intro h h1 hr
    simp only [Helper.readIgnoreFiles] at hr
    cases hf : w.readFile f with
    | none => simp [hf] at hr
    | some text =>
      simp only [hf] at hr
      have h3 := ih _ h1 hr
      exact h3

theorem Helper.loaded_fields (w : World) (fl : Helper.Flags) (h1 : Helper.helper)
    (hload : Helper.loaded w fl = .ok h1) :
    h1.fileArgs = [] ∧ h1.all = fl.all ∧ h1.hook = fl.hook := by
  unfold Helper.loaded at hload
  split_ifs at hload
  · exact Helper.readIgnoreFiles_fields w fl.ignore (Helper.initial fl) h1 hload
  · simp only [Except.ok.injEq] at hload
    rw [← hload]
    exact ⟨rfl, rfl, rfl⟩

theorem Helper.readIgnoreFiles_error (w : World) : ∀ (files : List Str) (h : Helper.helper)
    (f : Fatal), Helper.readIgnoreFiles w files h = .error f →
      f = .opening ((files.filter fun file => (w.readFile file).isNone).headD []) := by
  intro files
  induction files with
  | nil => intro h f hr; simp [Helper.readIgnoreFiles] at hr
  | cons file fs ih =>
    intro h f hr
    simp only [Helper.readIgnoreFiles] at hr
    cases hf : w.readFile file with
    | none =>
      simp only [hf, Except.error.injEq] at hr
      rw [← hr]
      simp [List.filter_cons, hf]
    | some text =>
      simp only [hf] at hr
      rw [ih _ f hr]
      simp [List.filter_cons, hf]

/-- When the ignore files cannot all be read, the run ends at the first one
that cannot be opened. -/
theorem Helper.loaded_error (w : World) (fl : Helper.Flags) (f : Fatal)
    (hload : Helper.loaded w fl = .error f) :
    f = .opening ((fl.ignore.filter fun file => (w.readFile file).isNone).headD []) := by
  unfold Helper.loaded at hload
  split_ifs at hload
  exact Helper.readIgnoreFiles_error w fl.ignore (Helper.initial fl) f hload

theorem Helper.main_of_load_error (w : World) (fl : Helper.Flags) (f : Fatal)
    (hhelp : fl.help = false) (hload : Helper.loaded w fl = .error f) :
    Helper.main w fl = (Sys.init, .error f) := by
  unfold Helper.loaded Helper.initial at hload
  simp only [Helper.main, hhelp, Bool.false_eq_true, if_false, hload]

/-- An invocation of the configurable pipeline with no mode flag, no file
argument and no `CI` variable, whose ignore files can be read, ends with the
usage error before anything is run. -/
theorem Helper.main_no_mode (w : World) (fl : Helper.Flags) (h1 : Helper.helper)
    (hhelp : fl.help = false) (hall : fl.all = false) (hhook : fl.hook = false)
    (hargs : Helper.fileArguments fl.args = []) (hci : w.ci = [])
    (hload : Helper.loaded w fl = .ok h1) :
    Helper.main w fl = (Sys.init, .error (.badUsage
      "When running outside a CI system, you must pass -all, -commit-hook, or a list of files".toList)) := by
  obtain ⟨l1, l2, l3⟩ := Helper.loaded_fields w fl h1 hload
  obtain ⟨p1, p2, p3⟩ := Helper.parseExtraArgsLoop_files fl.args h1
  rw [l1, hargs] at p1
  rw [l2, hall] at p2
  rw [l3, hhook] at p3
  rw [Helper.main_eq w fl h1 hhelp hload]
  simp only [Helper.parseExtraArgs]
  generalize Helper.parseExtraArgsLoop fl.args false h1 = hp at p1 p2 p3
  simp only [List.append_nil] at p1
  simp [Helper.setDirs, Helper.selectFiles, p1, p2, p3, Helper.inCI, hci, Step.andThen,
    Helper.setDirsLoop, Helper.checkArgSanity]

/-- C8, amended: in the simple pipeline an empty selection ends the run with
exit code 0 and no tool is run, in particular for no argument and no `CI`
variable. In the configurable pipeline an empty Directory Set ends the run with
exit code 0 and no tool is run when `checkArgSanity` accepts the arguments. An
invocation of the configurable pipeline (without `-help`) with no mode flag,
no file argument and no `CI` variable, whatever its linter arguments and
`-ignore` files, is not accepted: it ends with exit code 1 and nothing is run,
with the usage error of `checkArgSanity` when its ignore files can be read and
with the error of `readIgnoreFiles` when one of them cannot be opened. -/
theorem empty_selection_exit (w : World) :
    (∀ st : Sys, CheckGoFiles.isHelp (w.args.headD []) = false →
      CheckGoFiles.selectFiles w Sys.init = (st, .ok []) →
      CheckGoFiles.main w = (st, .ok 0)) ∧
    (w.args = [] → w.ci = [] → CheckGoFiles.main w = (Sys.init, .ok 0)) ∧
    (∀ (fl : Helper.Flags) (h1 h2 : Helper.helper) (st : Sys), fl.help = false →
      Helper.loaded w fl = .ok h1 →
      Helper.setDirs w (Helper.parseExtraArgs h1 fl.args) Sys.init = (st, .ok h2) →
      h2.dirs = [] → Helper.checkArgSanity w h2 = .ok () →
      Helper.main w fl = (st, .ok 0)) ∧
    (∀ fl : Helper.Flags, fl.help = false → fl.all = false → fl.hook = false →
      Helper.fileArguments fl.args = [] → w.ci = [] →
      (Helper.main w fl).1 = Sys.init ∧ exitCode (Helper.main w fl).2 = 1 ∧
      (∀ h1, Helper.loaded w fl = .ok h1 →
        Helper.main w fl = (Sys.init, .error (.badUsage
          "When running outside a CI system, you must pass -all, -commit-hook, or a list of files".toList))) ∧
      (∀ f, Helper.loaded w fl = .error f →
        Helper.main w fl = (Sys.init, .error (.opening
          ((fl.ignore.filter fun file => (w.readFile file).isNone).headD []))))) := by
  refine ⟨?_, ?_, ?_, ?_⟩
  · intro st hh hsel
    simp only [CheckGoFiles.main, hh, hsel, Step.andThen, Bool.false_eq_true, if_false,
      List.length_nil, if_true]
  · intro ha hc
    simp [CheckGoFiles.main, CheckGoFiles.selectFiles, CheckGoFiles.isHelp, ha, hc, Step.andThen]
  · intro fl h1 h2 st hhelp hload hset hd hsan
    rw [Helper.main_eq w fl h1 hhelp hload, hset]
    simp [Step.andThen, hsan, hd]
  · intro fl hhelp hall hhook hargs hci
    have hok : ∀ h1, Helper.loaded w fl = .ok h1 →
        Helper.main w fl = (Sys.init, .error (.badUsage
          "When running outside a CI system, you must pass -all, -commit-hook, or a list of files".toList)) :=
      fun h1 hload => Helper.main_no_mode w fl h1 hhelp hall hhook hargs hci hload
    have herr : ∀ f, Helper.loaded w fl = .error f →
        Helper.main w fl = (Sys.init, .error (.opening
          ((fl.ignore.filter fun file => (w.readFile file).isNone).headD []))) := by
      intro f hload
      rw [Helper.main_of_load_error w fl f hhelp hload]
      rw [Helper.loaded_error w fl f hload]
    have hmain : (Helper.main w fl).1 = Sys.init ∧ exitCode (Helper.main w fl).2 = 1 := by
      cases hl : Helper.loaded w fl with
      | ok h1 => rw [hok h1 hl]; exact ⟨rfl, rfl⟩
      | error f => rw [herr f hl]; exact ⟨rfl, rfl⟩
    exact ⟨hmain.1, hmain.2, hok, herr⟩

theorem empty_selection_exit_witness :
    CheckGoFiles.main (worldOf ["-commit-hook".toList] [] (stagedExec "README.md\n".toList)
        exampleTree) = (⟨[gitStaged], []⟩, .ok 0) ∧
    CheckGoFiles.main (worldOf [] [] (constExec [] [] none) exampleTree) = (Sys.init, .ok 0) ∧
    Helper.main (worldOf [] [] (stagedExec "vendor/b.go\n".toList) exampleTree)
        (flagsOf false true []) = (⟨[gitStaged], []⟩, .ok 0) ∧
    exitCode (Helper.main (worldOf [] [] (constExec [] [] none) exampleTree)
        (flagsOf false false ["--fast".toList])).2 = 1 ∧
    Helper.main (worldOf [] [] (constExec [] [] none) exampleTree)
        (flagsOf false false ["--deadline=5s".toList])
      = (Sys.init, .error (.badUsage
          "When running outside a CI system, you must pass -all, -commit-hook, or a list of files".toList)) ∧
    Helper.main (worldOf [] [] (constExec [] [] none) exampleTree)
        ⟨false, false, "gometalinter".toList, ["lint.ignore".toList], false, false, []⟩
      = (Sys.init, .error (.opening "lint.ignore".toList)) :=
  ⟨(empty_selection_exit (worldOf ["-commit-hook".toList] [] (stagedExec "README.md\n".toList)
      exampleTree)).1 ⟨[gitStaged], []⟩ rfl rfl,
    (empty_selection_exit (worldOf [] [] (constExec [] [] none) exampleTree)).2.1 rfl rfl,
    (empty_selection_exit (worldOf [] [] (stagedExec "vendor/b.go\n".toList) exampleTree)).2.2.1
      (flagsOf false true []) (helperOf false true []) (helperOf false true [])
      ⟨[gitStaged], []⟩ rfl rfl rfl rfl rfl,
    ((empty_selection_exit (worldOf [] [] (constExec [] [] none) exampleTree)).2.2.2
      (flagsOf false false ["--fast".toList]) rfl rfl rfl rfl rfl).2.1,
    ((empty_selection_exit (worldOf [] [] (constExec [] [] none) exampleTree)).2.2.2
      (flagsOf false false ["--deadline=5s".toList]) rfl rfl rfl rfl rfl).2.2.1
      (helperOf false false []) rfl,
    ((empty_selection_exit (worldOf [] [] (constExec [] [] none) exampleTree)).2.2.2
      ⟨false, false, "gometalinter".toList, ["lint.ignore".toList], false, false, []⟩
      rfl rfl rfl rfl rfl).2.2.2 (.opening "lint.ignore".toList) rfl⟩

theorem intercalate_concat (sep : Str) (cs : List Str) (hcs : cs ≠ []) (n : Str) :
    sep.intercalate (cs ++ [n]) = sep.intercalate cs ++ sep ++ n := by
  induction cs with
  | nil => exact absurd rfl hcs
  | cons c cs ih =>
    cases cs with
    | nil => simp [List.intercalate]
    | cons d ds =>
      have := ih (by simp)
      simp only [List.intercalate, List.cons_append, List.intersperse_cons_cons,
        List.flatten_cons, List.append_assoc] at this ⊢
      rw [this]

/-- The path of an entry of the root is its name. -/
theorem Join_root (n : Str) (hn : validName n = true) : Join [".".toList, n] = n := by
  obtain ⟨h1, _, _, h4⟩ := (validName_iff n).mp hn
  have hj : Join [".".toList, n] = Clean (['/'].intercalate [".".toList, n]) := rfl
  have hsplit : (['/'].intercalate [".".toList, n]).splitOn '/' = [".".toList, n] := by
    refine List.splitOn_intercalate _ '/' ?_ (by simp)
    intro l hl
    rcases List.mem_cons.mp hl with h | h
    · rw [h]; decide
    · rw [List.mem_singleton.mp h]; exact h4
  have hfold : [".".toList, n].foldl (cleanStep false) [] = [n] := by
    rw [List.foldl_cons]
    have : cleanStep false [] ".".toList = [] := by decide
    rw [this, foldl_cleanStep_valid false [n] [] (by simpa using hn)]
    rfl
  rw [hj, Clean_eq _ (by simp [List.intercalate]) false (by simp [List.intercalate]) [n]
    (by rw [hsplit, hfold]; rfl)]
  simp [List.intercalate, h1]

/-- The path of an entry of a directory below the root is the path of the
directory, a separator and the name. -/
theorem Join_entry (cs : List Str) (hcs : cs ≠ []) (hv : ∀ c ∈ cs, validName c = true)
    (n : Str) (hn : validName n = true) :
    Join [['/'].intercalate cs, n] = ['/'].intercalate (cs ++ [n]) := by
  have hne : ['/'].intercalate cs ≠ [] := by
    have := Clean_relative 0 cs hv (by simpa using hcs)
    simp only [List.replicate_zero, List.nil_append] at this
    rw [← this]
    exact Clean_ne_nil _
  have hj : Join [['/'].intercalate cs, n]
      = Clean (['/'].intercalate [['/'].intercalate cs, n]) := by
    obtain ⟨a, as, h⟩ := List.exists_cons_of_ne_nil hne
    rw [h]
    simp [Join]
  have hcat : ['/'].intercalate [['/'].intercalate cs, n] = ['/'].intercalate (cs ++ [n]) := by
    rw [intercalate_concat _ cs hcs]
    simp [List.intercalate]
  rw [hj, hcat]
  have := Clean_relative 0 (cs ++ [n])
    (by
      intro c hc
      rcases List.mem_append.mp hc with h | h
      · exact hv c h
      · rw [List.mem_singleton.mp h]; exact hn)
    (by simp)
  simpa using this

theorem CheckGoFiles.simple_walkFn_plain : CheckGoFiles.walkFn.Plain := by
  intro path d files h1 h2
  simp only [CheckGoFiles.walkFn, Bool.false_eq_true, if_false, h1, h2, or_self]
  split_ifs <;> rfl

theorem Helper.helper_walkFn_plain : Helper.walkFn.Plain := by
  intro path d files h1 h2
  simp only [Helper.walkFn, Bool.false_eq_true, if_false, h1, h2, decide_False, Bool.or_self,
    Bool.and_false]
  split_ifs <;> rfl

theorem sep_path_ne (cs : List Str) (hcs : cs ≠ []) (n : Str) :
    ['/'].intercalate (cs ++ [n]) ≠ ".git".toList ∧
      ['/'].intercalate (cs ++ [n]) ≠ "vendor".toList := by
  have hmem : '/' ∈ ['/'].intercalate (cs ++ [n]) := by
    rw [intercalate_concat _ cs hcs]
    simp
  constructor
  · intro h
    rw [h] at hmem
    revert hmem
    decide
  · intro h
    rw [h] at hmem
    revert hmem
    decide

theorem filter_isGoFile_cons (path : Str) (files rest : List Str) :
    (if isGoFile path = true then files ++ [path] else files) ++ rest.filter isGoFile
      = files ++ (path :: rest).filter isGoFile := by
  by_cases h : isGoFile path = true
  · simp [h, List.filter_cons]
  · simp [h, List.filter_cons]

mutual
/-- Below the pruned names the walk appends exactly the paths that end in
`.go`, in walk order. -/
theorem walk_sound (fn : WalkFunc) (hfn : fn.Plain) :
    ∀ (n : Node) (cs : List Str) (files : List Str), cs ≠ [] →
      (∀ c ∈ cs, validName c = true) → ['/'].intercalate cs ≠ ".git".toList →
      ['/'].intercalate cs ≠ "vendor".toList → n.sound = true →
      walk fn (['/'].intercalate cs) n files
        = (files ++ (n.paths (['/'].intercalate cs)).filter isGoFile, .nil)
  | .file, cs, files, _, _, h1, h2, _ => by
      simp only [walk, hfn _ false files h1 h2, Node.paths]
      rw [← filter_isGoFile_cons]
      simp
  | .bad, _, _, _, _, _, _, hs => by simp [Node.sound] at hs
  | .noRead, _, _, _, _, _, _, hs => by simp [Node.sound] at hs
  | .dir es, cs, files, hcs, hv, h1, h2, hs => by
      simp only [Node.sound] at hs
      simp only [walk, hfn _ true files h1 h2, Node.paths]
      rw [walkEntries_sound fn hfn es cs _ hcs hv hs]
      rw [filter_isGoFile_cons]
theorem walkEntries_sound (fn : WalkFunc) (hfn : fn.Plain) :
    ∀ (es : Entries) (cs : List Str) (files : List Str), cs ≠ [] →
      (∀ c ∈ cs, validName c = true) → es.sound = true →
      walkEntries fn (['/'].intercalate cs) es files
        = (files ++ (es.paths (['/'].intercalate cs ++ ['/'])).filter isGoFile, .nil)
  | .nil, _, files, _, _, _ => by simp [walkEntries, Entries.paths]
  | .cons name child rest, cs, files, hcs, hv, hs => by
      simp only [Entries.sound, Bool.and_eq_true] at hs
      obtain ⟨⟨hn, hc⟩, hr⟩ := hs
      have hv2 : ∀ c ∈ cs ++ [name], validName c = true := by
        intro c hc
        rcases List.mem_append.mp hc with h | h
        · exact hv c h
        · rw [List.mem_singleton.mp h]; exact hn
      have hne := sep_path_ne cs hcs name
      simp only [walkEntries, Join_entry cs hcs hv name hn]
      rw [walk_sound fn hfn child (cs ++ [name]) files (by simp) hv2 hne.1 hne.2 hc]
      simp only
      rw [walkEntries_sound fn hfn rest cs _ hcs hv hr]
      simp only [Entries.paths, List.filter_append, List.append_assoc]
      rw [intercalate_concat _ cs hcs]
      simp only [List.append_assoc]
end

theorem firstSegment_of_under (n p : Str) (hn : '/' ∉ n) (hp : Under n p) :
    firstSegment p = n := by
  have hn2 : ∀ x ∈ n, ¬((x == '/') = true) := by
    intro x hx h
    rw [beq_iff_eq] at h
    exact hn (h ▸ hx)
  rcases hp with h | ⟨r, h⟩
  · rw [h]
    simp only [firstSegment, List.splitOn]
    rw [List.splitOnP_eq_single _ _ hn2]
    rfl
  · rw [h]
    simp only [firstSegment, List.splitOn]
    rw [List.splitOnP_first _ _ hn2 '/' (by simp)]
    rfl

mutual
theorem Node.node_paths_under (n : Str) :
    ∀ (node : Node) (path : Str), Under n path → ∀ p ∈ node.paths path, Under n p
  | .file, path, h, p, hp => by
      simp only [Node.paths, List.mem_singleton] at hp
      rw [hp]; exact h
  | .bad, path, h, p, hp => by
      simp only [Node.paths, List.mem_singleton] at hp
      rw [hp]; exact h
  | .noRead, path, h, p, hp => by
      simp only [Node.paths, List.mem_singleton] at hp
      rw [hp]; exact h
  | .dir es, path, h, p, hp => by
      simp only [Node.paths, List.mem_cons] at hp
      rcases hp with hp | hp
      · rw [hp]; exact h
      · refine Entries.entries_paths_under n es (path ++ ['/']) ?_ p hp
        rcases h with h | ⟨r, h⟩
        · exact ⟨[], by rw [h]⟩
        · exact ⟨r ++ ['/'], by rw [h]; simp⟩
theorem Entries.entries_paths_under (n : Str) :
    ∀ (es : Entries) (pre : Str), (∃ r, pre = n ++ '/' :: r) → ∀ p ∈ es.paths pre, Under n p
  | .nil, _, _, p, hp => by simp [Entries.paths] at hp
  | .cons name child rest, pre, h, p, hp => by
      simp only [Entries.paths, List.mem_append] at hp
      rcases hp with hp | hp
      · refine Node.node_paths_under n child (pre ++ name) ?_ p hp
        obtain ⟨r, hr⟩ := h
        exact Or.inr ⟨r ++ name, by rw [hr]; simp⟩
      · exact Entries.entries_paths_under n rest pre h p hp
end

/-- Among the paths at and below an entry of the root all or none are kept,
by the name of the entry. -/
theorem filter_keptPath_entry (name : Str) (hn : validName name = true) (child : Node) :
    (child.paths name).filter keptPath
      = if isPruned name = true then [] else (child.paths name).filter isGoFile := by
  have hsep : '/' ∉ name := ((validName_iff name).mp hn).2.2.2
  have hfs : ∀ p ∈ child.paths name, firstSegment p = name := fun p hp =>
    firstSegment_of_under name p hsep (Node.node_paths_under name child name (Or.inl rfl) p hp)
  by_cases hpr : isPruned name = true
  · rw [if_pos hpr, List.filter_eq_nil_iff]
    intro p hp
    simp [keptPath, hfs p hp, hpr]
  · rw [if_neg hpr]
    refine List.filter_congr ?_
    intro p hp
    simp [keptPath, hfs p hp, hpr]

/-- The walk of the entries of the root: a directory `.git` or `vendor` is
skipped, everything else is walked through. -/
theorem walkEntries_root (fn : WalkFunc) (hfn : fn.Plain)
    (hdir : ∀ n files, isPruned n = true → fn n true false files = (files, .skipDir))
    (strict : Bool)
    (hfile : strict = false → ∀ n files, isPruned n = true →
      fn n false false files = (files, .nil)) :
    ∀ (es : Entries) (files : List Str), es.rootSound strict = true →
      walkEntries fn ".".toList es files = (files ++ (es.paths []).filter keptPath, .nil)
  | .nil, files, _ => by simp [walkEntries, Entries.paths]
  | .cons name child rest, files, hs => by
      simp only [Entries.rootSound, Bool.and_eq_true] at hs
      obtain ⟨⟨hn, hc⟩, hr⟩ := hs
      have ih := walkEntries_root fn hfn hdir strict hfile rest
      simp only [walkEntries, Join_root name hn, Entries.paths, List.nil_append,
        List.filter_append, filter_keptPath_entry name hn child]
      by_cases hpr : isPruned name = true
      · rw [if_pos hpr] at hc
        rw [if_pos hpr]
        cases child with
        | dir es1 =>
          simp only [walk, hdir name files hpr, Node.isDir, Bool.true_or, if_true]
          rw [ih files hr]
          simp
        | file =>
          have hst : strict = false := by simpa using hc
          simp only [walk, hfile hst name files hpr]
          rw [ih files hr]
          simp
        | bad => simp at hc
        | noRead => simp at hc
      · rw [if_neg hpr] at hc
        rw [if_neg hpr]
        have hne : name ≠ ".git".toList ∧ name ≠ "vendor".toList := by
          simp only [isPruned, Bool.or_eq_true, beq_iff_eq, not_or] at hpr
          exact hpr
        have hw := walk_sound fn hfn child [name] files (by simp) (by simpa using hn)
          (by simpa [List.intercalate] using hne.1) (by simpa [List.intercalate] using hne.2) hc
        have hi : ['/'].intercalate [name] = name := by simp [List.intercalate]
        rw [hi] at hw
        rw [hw]
        simp only
        rw [ih _ hr]
        simp

theorem Walk_root (fn : WalkFunc) (hfn : fn.Plain)
    (hdir : ∀ n files, isPruned n = true → fn n true false files = (files, .skipDir))
    (strict : Bool)
    (hfile : strict = false → ∀ n files, isPruned n = true →
      fn n false false files = (files, .nil))
    (tree : Node) (hs : tree.rootSound strict = true) :
    Walk ".".toList fn tree [] = ((treePaths tree).filter keptPath, .nil) := by
  have h1 : ".".toList ≠ ".git".toList := by decide
  have h2 : ".".toList ≠ "vendor".toList := by decide
  have hgo : isGoFile ".".toList = false := by decide
  have hk : keptPath ".".toList = false := by decide
  have hf1 : fn ".".toList false false [] = ([], .nil) := by
    rw [hfn _ false [] h1 h2, hgo]; rfl
  have hf2 : fn ".".toList true false [] = ([], .nil) := by
    rw [hfn _ true [] h1 h2, hgo]; rfl
  cases tree with
  | file =>
    simp only [Walk, walk, hf1, treePaths, List.filter_cons, hk]
    rfl
  | dir es =>
    simp only [Node.rootSound] at hs
    simp only [Walk, walk, hf2, treePaths, List.filter_cons, hk,
      walkEntries_root fn hfn hdir strict hfile es [] hs]
    rfl
  | bad => simp [Node.rootSound] at hs
  | noRead => simp [Node.rootSound] at hs

/-- C10 fails on the code. A directory named `vendor` below the root is not
pruned: both programs return `sub/vendor/x.go`, which lies beneath it, and the
configurable pipeline runs the linter on `sub/vendor`. And in the simple
pipeline a path outside every pruned directory is lost: a regular file `.git`
in the root makes the walk function return `filepath.SkipDir` without looking
at `info.IsDir()`, which ends the walk of the root, so `a.go`, a path of the
tree that the configurable pipeline returns, is not returned. -/
theorem allGoFiles_pruning_defects :
    Helper.allGoFiles (worldOf [] [] (constExec [] [] none) exampleTree) Sys.init
      = (Sys.init, .ok ["a.go".toList, "sub/vendor/x.go".toList]) ∧
    CheckGoFiles.allGoFiles (worldOf [] [] (constExec [] [] none) exampleTree) Sys.init
      = (Sys.init, .ok ["a.go".toList, "sub/vendor/x.go".toList]) ∧
    "vendor".toList ∈ "sub/vendor/x.go".toList.splitOn '/' ∧
    Helper.main (worldOf [] [] (constExec [] [] none) exampleTree) (flagsOf true false [])
      = (⟨[["gometalinter".toList, ".".toList, "sub/vendor".toList]], []⟩, .ok 0) ∧
    "a.go".toList ∈ treePaths gitFileTree ∧
    CheckGoFiles.allGoFiles (worldOf [] [] (constExec [] [] none) gitFileTree) Sys.init
      = (Sys.init, .ok []) ∧
    Helper.allGoFiles (worldOf [] [] (constExec [] [] none) gitFileTree) Sys.init
      = (Sys.init, .ok ["a.go".toList]) := by
  refine ⟨rfl, rfl, by decide, rfl, by decide, rfl, rfl⟩

/-- What the walk of all-files mode does: it prunes the directories `.git` and
`vendor` of the root only. For a tree that is read without an error (nothing
being asked of what is inside those two directories), the files returned are
exactly the paths of the tree, in walk order, that end in `.go` and whose first
segment is neither `.git` nor `vendor`. In the simple pipeline this holds for
the trees whose root entries named `.git` or `vendor` are directories. -/
theorem allGoFiles_top_pruning (w : World) (st : Sys) :
    (w.tree.rootSound false = true →
      Helper.allGoFiles w st = (st, .ok ((treePaths w.tree).filter keptPath))) ∧
    (w.tree.rootSound true = true →
      CheckGoFiles.allGoFiles w st = (st, .ok ((treePaths w.tree).filter keptPath))) := by
  constructor
  · intro hs
    have hw := Walk_root Helper.walkFn Helper.helper_walkFn_plain
      (by
        intro n files hn
        simp only [isPruned, Bool.or_eq_true, beq_iff_eq] at hn
        rcases hn with h | h <;> subst h <;> rfl)
      false
      (by
        intro _ n files hn
        simp only [isPruned, Bool.or_eq_true, beq_iff_eq] at hn
        rcases hn with h | h <;> subst h <;> rfl)
      w.tree hs
    simp only [Helper.allGoFiles, hw]
  · intro hs
    have hw := Walk_root CheckGoFiles.walkFn CheckGoFiles.simple_walkFn_plain
      (by
        intro n files hn
        simp only [isPruned, Bool.or_eq_true, beq_iff_eq] at hn
        rcases hn with h | h <;> subst h <;> rfl)
      true
      (by intro h; cases h)
      w.tree hs
    simp only [CheckGoFiles.allGoFiles, hw]

theorem allGoFiles_top_pruning_example :
    Helper.allGoFiles (worldOf [] [] (constExec [] [] none) gitFileTree) Sys.init
      = (Sys.init, .ok ((treePaths gitFileTree).filter keptPath)) ∧
    CheckGoFiles.allGoFiles (worldOf [] [] (constExec [] [] none) exampleTree) Sys.init
      = (Sys.init, .ok ((treePaths exampleTree).filter keptPath)) :=
  ⟨(allGoFiles_top_pruning (worldOf [] [] (constExec [] [] none) gitFileTree) Sys.init).1 rfl,
    (allGoFiles_top_pruning (worldOf [] [] (constExec [] [] none) exampleTree) Sys.init).2 rfl⟩

/-! ## The filter on the output of git -/

/-- In the configurable pipeline a list of staged or changed files in which
every path has `.git` or `vendor` as its first segment is dropped whole, and the
Directory Set made from it is empty. -/
theorem filteredOutput_pruned (output : Str)
    (h : ∀ l ∈ linesFrom (TrimSpace output), isPruned (firstSegment l) = true) :
    filteredOutput output = [] ∧
      ∀ (w : World) (ig : List Str), Helper.setDirsLoop w ig (filteredOutput output) [] = .ok [] := by
  have hnil : filteredOutput output = [] := by
    unfold filteredOutput
    rw [List.filter_eq_nil_iff]
    intro l hl
    have := h l hl
    simp only [isPruned, firstSegment] at this
    simp only [ToSlash, this, Bool.not_true, Bool.false_eq_true, not_false_eq_true]
  exact ⟨hnil, fun w ig => by rw [hnil]; rfl⟩

/-- C5 fails on the simple pipeline: in commit-hook mode a staged file
`vendor/b.go` is kept by `linesFrom`, the Directory Set is `./vendor`, and all
four tools are run on it. The configurable pipeline drops the file
(`filteredOutput_pruned`). -/
theorem commitHook_vendor_kept :
    isPruned (firstSegment "vendor/b.go".toList) = true ∧
    CheckGoFiles.commitHookGoFiles
        (worldOf ["-commit-hook".toList] [] (stagedExec "vendor/b.go\n".toList) exampleTree)
        Sys.init
      = (⟨[gitStaged], []⟩, .ok ["vendor/b.go".toList]) ∧
    dirs ["vendor/b.go".toList] = ["./vendor".toList] ∧
    CheckGoFiles.main
        (worldOf ["-commit-hook".toList] [] (stagedExec "vendor/b.go\n".toList) exampleTree)
      = (⟨[gitStaged, ["gofmt".toList, "-l".toList, "vendor/b.go".toList],
            ["golint".toList, "./vendor".toList], ["go".toList, "vet".toList, "./vendor".toList],
            ["errcheck".toList, "./vendor".toList]], []⟩, .ok 0) ∧
    filteredOutput "vendor/b.go\n".toList = [] := by
  refine ⟨by decide, rfl, by decide, rfl, by decide⟩

end GoMetalinter
